import Mathlib

/-!
Shallow embedding of lerna's `src/commands/BootstrapCommand.js`:
the dependency-placement planner `getDependenciesToInstall`, the action
builder of `installExternalDependencies`, and the batched lifecycle
script runner `runScriptInPackages`.

JavaScript objects used as string-keyed maps are embedded as association
lists in key-insertion order (`Object.keys` enumerates non-integer string
keys in insertion order); `jsGet`/`jsSet` mirror property read and write.
External collaborators that live outside this repository's source
(the semver matcher, `PackageUtilities.isHoistedPackage`,
`PackageGraph.get`, `Package#hasMatchingDependency`,
`Package#hasDependencyInstalled`, topological batching and the parallel
batch runner) are modelled from the specification, as noted on each.
-/

namespace Lerna

/-- Read of a string-keyed JavaScript object property: the value at the
first occurrence of the key, `none` when absent. -/
def jsGet {α : Type} (m : List (String × α)) (k : String) : Option α :=
  match m with
  | [] => none
  | p :: m => if p.1 = k then some p.2 else jsGet m k

/-- Write of a string-keyed JavaScript object property: overwrite in place
when the key is present, append a fresh key at the end otherwise. -/
def jsSet {α : Type} (m : List (String × α)) (k : String) (v : α) :
    List (String × α) :=
  if (jsGet m k).isSome then
    m.map (fun p => if p.1 = k then (k, v) else p)
  else
    m ++ [(k, v)]

/-- Truthiness of a JavaScript string: every string except `""` is truthy. -/
def strTruthy (s : String) : Bool := s != ""

/-- The JavaScript idiom `x || d` for a possibly-absent string `x`:
falls back to `d` when `x` is `undefined` or the empty string. -/
def jsOrElse (x : Option String) (d : String) : String :=
  match x with
  | some s => if s == "" then d else s
  | none => d

/-- A repo-local package as the planner consumes it.  `allDependencies`
is the manifest's dependency map in key order.  The two Boolean probes
stand for methods outside this repository's source.
`hasMatchingDependencyB` is modelled from the spec: it is
`Package#hasMatchingDependency`, deciding whether the requester already
has the named local dependency materially present.
`hasDependencyInstalledB` is modelled from the spec: it is
`Package#hasDependencyInstalled`, the coarse on-disk presence probe for a
named dependency. -/
structure Package where
  name : String
  version : String
  location : String
  nodeModulesLocation : String
  allDependencies : List (String × String)
  hasMatchingDependencyB : String → Bool
  hasDependencyInstalledB : String → Bool

/-- The repository-level manifest and root paths.
`hasDependencyInstalledB` is modelled from the spec: it is
`Repository#hasDependencyInstalled(name, version)`, the probe of whether
a satisfying copy is already installed at the root. -/
structure Repository where
  rootPath : String
  nodeModulesLocation : String
  allDependencies : List (String × String)
  hasDependencyInstalledB : String → String → Bool

/-- The options the planner and orchestrator consult.  `hoistEnabled` is
the truthiness of `options.hoist`; `hoistable` is modelled from the spec:
it is `PackageUtilities.isHoistedPackage(name, hoist, nohoist)`, the glob
decision of hoistability for a dependency name.  `toposort` is the
`Command#toposort` flag (the `--sort` option). -/
structure Options where
  hoistEnabled : Bool
  hoistable : String → Bool
  toposort : Bool

/-- The state a `BootstrapCommand` instance carries into the planner.
`satisfies` is modelled from the spec: it is the external semver
collaborator `semver.satisfies(version, range)`. -/
structure BootstrapState where
  satisfies : String → String → Bool
  packages : List Package
  filteredPackages : List Package
  graphPackages : List Package
  repository : Repository
  options : Options

/-- One entry of the `depsToInstall` aggregate: per requested version a
requester count and the requester names, both in key-insertion order. -/
structure DepEntry where
  versions : List (String × Nat)
  dependents : List (String × List String)
deriving DecidableEq, Repr, Inhabited

/-- The planner-internal aggregate `depsToInstall`. -/
abbrev Aggregate := List (String × DepEntry)

/-- The two warning codes the planner emits through the tracker. -/
inductive Warning
  | hoistRoot (name rootVersion commonVersion : String)
  | hoistPkg (pkgName name version rootVersion : String)
deriving DecidableEq, Repr

/-- The dependency name a warning is about. -/
def Warning.depName : Warning → String
  | .hoistRoot n _ _ => n
  | .hoistPkg _ n _ _ => n

/-- One entry of the plan's `root` list.  The source stores the spec
string `name@rootVersion` in the field `dependency`; the embedding keeps
the two components and derives the string. -/
structure RootInstall where
  name : String
  rootVersion : String
  dependents : List Package
  isSatisfied : Bool

/-- The spec string `${name}@${rootVersion}` of a root install. -/
def RootInstall.dependency (r : RootInstall) : String :=
  r.name ++ "@" ++ r.rootVersion

/-- One entry of a requester's `leaves` list.  The source stores the spec
string `name@version` in the field `dependency`; the embedding keeps the
two components and derives the string. -/
structure LeafInstall where
  name : String
  version : String
  isSatisfied : Bool
deriving DecidableEq, Repr

/-- The spec string `${name}@${version}` of a leaf install. -/
def LeafInstall.dependency (l : LeafInstall) : String :=
  l.name ++ "@" ++ l.version

/-- The value `getDependenciesToInstall` returns, together with the
warnings it emitted while computing it. -/
structure InstallPlan where
  root : List RootInstall
  leaves : List (String × List LeafInstall)
  warnings : List Warning

instance : Inhabited InstallPlan := ⟨⟨[], [], []⟩⟩

/-- The local closure `findPackage(name, version)`: the first of
`this.packages` whose name matches and whose version satisfies the range;
a `undefined` or empty-string range matches on name alone. -/
def findPackage (st : BootstrapState) (name : String) (version : Option String) :
    Option Package :=
  st.packages.find? (fun pkg =>
    pkg.name == name &&
      (match version with
       | none => true
       | some v => !strTruthy v || st.satisfies pkg.version v))

/-- The local closure `hasPackage(name, version)`. -/
def hasPackage (st : BootstrapState) (name : String) (version : Option String) : Bool :=
  (findPackage st name version).isSome

/-- The per-dependency map step: a declared name is replaced by the found
local package (carrying its concrete version) or by the normalized
external pair `{name, version: allDependencies[name]}`. -/
def externalizeDep (st : BootstrapState) (pkg : Package) (name : String) :
    String × String :=
  match findPackage st name (some ((jsGet pkg.allDependencies name).getD "")) with
  | some p => (p.name, p.version)
  | none => (name, (jsGet pkg.allDependencies name).getD "")

/-- The filter `!hasPackage(dep.name, dep.version) ||
!pkg.hasMatchingDependency(dep, true)`: keep externals and version
mismatched or not materially present locals. -/
def keepDep (st : BootstrapState) (pkg : Package) (dep : String × String) : Bool :=
  !hasPackage st dep.1 (some dep.2) || !pkg.hasMatchingDependencyB dep.1

/-- Record one kept dependency in the aggregate, auto-vivifying the entry
and, as in the source's falsy check `!dep.versions[version]`, resetting a
missing or zero-count version before counting the requester. -/
def recordDep (agg : Aggregate) (name version pkgName : String) : Aggregate :=
  let dep := (jsGet agg name).getD ⟨[], []⟩
  let dep :=
    if (jsGet dep.versions version).getD 0 == 0 then
      { versions := jsSet dep.versions version 0,
        dependents := jsSet dep.dependents version [] }
    else dep
  let cnt := (jsGet dep.versions version).getD 0
  let ds := (jsGet dep.dependents version).getD []
  jsSet agg name
    { versions := jsSet dep.versions version (cnt + 1),
      dependents := jsSet dep.dependents version (ds ++ [pkgName]) }

/-- The per-package pass of the aggregation loop: map every declared
dependency name, filter, and record the survivors. -/
def recordPackageDeps (st : BootstrapState) (agg : Aggregate) (pkg : Package) :
    Aggregate :=
  (((pkg.allDependencies.map (·.1)).map (externalizeDep st pkg)).filter
      (keepDep st pkg)).foldl
    (fun acc d => recordDep acc d.1 d.2 pkg.name) agg

/-- Seeding of the aggregate with the root manifest's dependencies at
count `0`. -/
def seedRootDeps (rootDeps : List (String × String)) : Aggregate :=
  (rootDeps.map (·.1)).foldl
    (fun acc name =>
      jsSet acc name ⟨[((jsGet rootDeps name).getD "", 0)],
        [((jsGet rootDeps name).getD "", [])]⟩)
    []

/-- The full `depsToInstall` aggregate: seed with the root manifest, then
fold the aggregation loop over the filtered packages. -/
def buildDepsToInstall (st : BootstrapState) : Aggregate :=
  st.filteredPackages.foldl (recordPackageDeps st)
    (seedRootDeps st.repository.allDependencies)

/-- The guard `hoist && PackageUtilities.isHoistedPackage(name, hoist, nohoist)`. -/
def hoistCheck (st : BootstrapState) (name : String) : Bool :=
  st.options.hoistEnabled && st.options.hoistable name

/-- The reduce `Object.keys(versions).reduce((a, b) => versions[a] >
versions[b] ? a : b)`: `none` models the TypeError the source throws on an
empty version map. -/
def commonVersionOf (e : DepEntry) : Option String :=
  match e.versions.map (·.1) with
  | [] => none
  | k :: ks =>
    some (ks.foldl
      (fun a b =>
        if (jsGet e.versions a).getD 0 > (jsGet e.versions b).getD 0 then a else b)
      k)

/-- The entry of the aggregate at a name, as the placement loop reads it. -/
def entryDE (agg : Aggregate) (name : String) : DepEntry :=
  (jsGet agg name).getD ⟨[], []⟩

/-- Lookup of a package node by name, modelled from the spec:
`PackageGraph.get(name)` returns the node or `NotFound`; the source
dereferences `.package` on the result, so an absent name fails. -/
def graphGet (graph : List Package) (name : String) : Option Package :=
  graph.find? (fun p => p.name == name)

/-- Truthiness of the `rootVersion` variable (`undefined` when the name is
not hoisted, and the empty string is falsy). -/
def rootVersionTruthy (rv : Option String) : Bool :=
  match rv with
  | some v => strTruthy v
  | none => false

/-- The body of the inner `dependents[version].forEach((pkg) => ...)`:
warn when a root version exists, then push the leaf install, probing the
requester through the one-argument `findPackage(pkg)` (an unknown
requester name fails). -/
def leafStep (st : BootstrapState) (name : String) (rv : Option String)
    (version : String) (acc : InstallPlan) (pkgName : String) : Option InstallPlan := do
  let acc :=
    if rootVersionTruthy rv then
      { acc with warnings := acc.warnings ++ [.hoistPkg pkgName name version (rv.getD "")] }
    else acc
  let leafPkg ← findPackage st pkgName none
  pure { acc with
    leaves := jsSet acc.leaves pkgName
      ((jsGet acc.leaves pkgName).getD [] ++
        [{ name := name, version := version,
           isSatisfied := leafPkg.hasDependencyInstalledB name }]) }

/-- The body of `Object.keys(versions).forEach((version) => ...)`: skip
the hoisted version, else record every dependent as a leaf install. -/
def versionStep (st : BootstrapState) (e : DepEntry) (name : String)
    (rv : Option String) (acc : InstallPlan) (version : String) : Option InstallPlan :=
  if some version == rv then pure acc
  else ((jsGet e.dependents version).getD []).foldlM (leafStep st name rv version) acc

/-- The `EHOIST_ROOT_VERSION` warning step: append the warning when the
root version differs from the common version. -/
def hoistWarn (acc : InstallPlan) (name rootVersion commonVersion : String) :
    InstallPlan :=
  if rootVersion != commonVersion then
    { acc with warnings := acc.warnings ++
        [Warning.hoistRoot name rootVersion commonVersion] }
  else acc

/-- The `root.push({...})` step of the hoisted branch. -/
def pushRoot (st : BootstrapState) (acc : InstallPlan) (name rootVersion : String)
    (deps : List Package) : InstallPlan :=
  { acc with root := acc.root ++
      [{ name := name, rootVersion := rootVersion, dependents := deps,
         isSatisfied := st.repository.hasDependencyInstalledB name rootVersion }] }

/-- The hoisted branch of the placement loop at one name: compute the
common version (the reduce throws on an empty version map), take the root
manifest's range when truthy, warn on disagreement, map the root
version's dependents through the package graph (an unknown name fails),
and push the root install.  Returns the `rootVersion` variable (absent
when not hoisted) together with the updated accumulator. -/
def hoistEntry (st : BootstrapState) (agg : Aggregate) (acc : InstallPlan)
    (name : String) : Option (Option String × InstallPlan) :=
  if hoistCheck st name then
    match commonVersionOf (entryDE agg name) with
    | none => none
    | some cv =>
      match ((jsGet (entryDE agg name).dependents
          (jsOrElse (jsGet st.repository.allDependencies name) cv)).getD []).mapM
          (fun d => graphGet st.graphPackages d) with
      | none => none
      | some deps =>
        some (some (jsOrElse (jsGet st.repository.allDependencies name) cv),
          pushRoot st
            (hoistWarn acc name
              (jsOrElse (jsGet st.repository.allDependencies name) cv) cv)
            name (jsOrElse (jsGet st.repository.allDependencies name) cv) deps)
  else some (none, acc)

/-- The body of the placement loop for one aggregate name: the hoisted
branch, then the remaining versions go to the leaves. -/
def processEntry (st : BootstrapState) (agg : Aggregate) (acc : InstallPlan)
    (name : String) : Option InstallPlan := do
  let (rv, acc) ← hoistEntry st agg acc name
  ((entryDE agg name).versions.map (·.1)).foldlM
    (versionStep st (entryDE agg name) name rv) acc

/-- The planner `getDependenciesToInstall`: build the aggregate, then run
the placement loop over its keys; `none` models a thrown TypeError. -/
def getDependenciesToInstall (st : BootstrapState) : Option InstallPlan :=
  (((buildDepsToInstall st).map (·.1)).foldlM
    (processEntry st (buildDepsToInstall st)) ⟨[], [], []⟩)

/-- One action queued by `installExternalDependencies`. -/
inductive InstallAction
  | rootInstall (dir : String) (specs : List String)
  | prune (dirs : List String)
  | leafInstall (dir : String) (specs : List String) (globalStyle : Bool)
deriving DecidableEq, Repr

/-- The `path.join(a, b)` of the two path pieces the prune action builds. -/
def pathJoin (a b : String) : String := a ++ "/" ++ b

/-- The action list `installExternalDependencies` builds from the plan:
the root install (with the all-or-nothing spec list) and prune actions
when `root` is non-empty, then one leaf install action per requester with
an unsatisfied leaf, passing the full spec list and the global-style flag
iff hoisting is enabled. -/
def installActions (st : BootstrapState) : Option (List InstallAction) := do
  let plan ← getDependenciesToInstall st
  let rootActions :=
    if plan.root.length != 0 then
      let depsToInstallInRoot :=
        if plan.root.any (fun r => !r.isSatisfied) then
          plan.root.map (·.dependency)
        else []
      let candidates :=
        (plan.root.filter (fun r => r.dependents.length != 0)).foldl
          (fun list r =>
            list ++
              ((r.dependents.filter
                  (fun p => p.nodeModulesLocation != st.repository.nodeModulesLocation)).map
                (fun p => pathJoin p.nodeModulesLocation r.name)))
          []
      [InstallAction.rootInstall st.repository.rootPath depsToInstallInRoot,
       InstallAction.prune candidates]
    else []
  let npmGlobalStyle := st.options.hoistEnabled
  let leafPairs ← (plan.leaves.map (·.1)).mapM (fun pkgName => do
    let node ← graphGet st.graphPackages pkgName
    pure (node, (jsGet plan.leaves pkgName).getD []))
  let leafActions := leafPairs.filterMap (fun pd =>
    if pd.2.any (fun d => !d.isSatisfied) then
      some (InstallAction.leafInstall pd.1.location (pd.2.map (·.dependency)) npmGlobalStyle)
    else none)
  pure (rootActions ++ leafActions)

/-! Basic facts about the JavaScript-object model. -/

theorem jsGet_nil {α : Type} (k : String) : jsGet ([] : List (String × α)) k = none := rfl

theorem jsGet_cons {α : Type} (p : String × α) (m : List (String × α)) (k : String) :
    jsGet (p :: m) k = if p.1 = k then some p.2 else jsGet m k := rfl

theorem jsGet_overwrite_self {α : Type} (m : List (String × α)) (k : String) (v : α) :
    jsGet (m.map (fun p => if p.1 = k then (k, v) else p)) k =
      if (jsGet m k).isSome then some v else none := by
  induction m with
  | nil => simp [jsGet_nil]
  | cons p m ih =>
    by_cases hp : p.1 = k
    · simp [jsGet_cons, hp]
    · simp [jsGet_cons, hp, ih]

theorem jsGet_overwrite_ne {α : Type} (m : List (String × α)) (k : String) (v : α)
    {j : String} (hne : j ≠ k) :
    jsGet (m.map (fun p => if p.1 = k then (k, v) else p)) j = jsGet m j := by
  induction m with
  | nil => simp
  | cons p m ih =>
    have hkj : ¬ k = j := fun h => hne h.symm
    by_cases hp : p.1 = k
    · have hpj : ¬ p.1 = j := by rw [hp]; exact hkj
      simp [jsGet_cons, hp, hpj, hkj, ih]
    · by_cases hpj : p.1 = j
      · simp [jsGet_cons, hp, hpj, hne]
      · simp [jsGet_cons, hp, hpj, ih]

theorem jsGet_append_single {α : Type} (m : List (String × α)) (k' : String) (v' : α)
    (j : String) :
    jsGet (m ++ [(k', v')]) j =
      if (jsGet m j).isSome then jsGet m j
      else if k' = j then some v' else none := by
  induction m with
  | nil => simp [jsGet_nil, jsGet_cons]
  | cons p m ih =>
    by_cases hpj : p.1 = j
    · simp [jsGet_cons, hpj]
    · simp [jsGet_cons, hpj, ih]

theorem jsGet_jsSet_self {α : Type} (m : List (String × α)) (k : String) (v : α) :
    jsGet (jsSet m k v) k = some v := by
  unfold jsSet
  by_cases hs : (jsGet m k).isSome
  · simp [hs, jsGet_overwrite_self]
  · simp [hs, jsGet_append_single, Option.not_isSome_iff_eq_none.mp hs]

theorem jsGet_jsSet_ne {α : Type} (m : List (String × α)) (k : String) (v : α)
    {j : String} (hne : j ≠ k) :
    jsGet (jsSet m k v) j = jsGet m j := by
  unfold jsSet
  by_cases hs : (jsGet m k).isSome
  · simp [hs, jsGet_overwrite_ne m k v hne]
  · have hkj : ¬ k = j := fun h => hne h.symm
    by_cases hj : (jsGet m j).isSome
    · simp [hs, jsGet_append_single, hj]
    · simp [hs, jsGet_append_single, hj, hkj,
        Option.not_isSome_iff_eq_none.mp hj]

theorem jsGet_mem {α : Type} {m : List (String × α)} {k : String} {v : α}
    (h : jsGet m k = some v) : (k, v) ∈ m := by
  induction m with
  | nil => simp [jsGet_nil] at h
  | cons p m ih =>
    rw [jsGet_cons] at h
    by_cases hp : p.1 = k
    · rw [if_pos hp] at h
      injection h with hv
      rw [← hv, ← hp, Prod.mk.eta]
      exact List.mem_cons_self _ _
    · rw [if_neg hp] at h
      exact List.mem_cons_of_mem _ (ih h)

theorem jsGet_mem_keys {α : Type} {m : List (String × α)} {k : String} {v : α}
    (h : jsGet m k = some v) : k ∈ m.map (·.1) :=
  List.mem_map.mpr ⟨(k, v), jsGet_mem h, rfl⟩

theorem jsGet_isSome_of_mem_keys {α : Type} {m : List (String × α)} {k : String}
    (h : k ∈ m.map (·.1)) : (jsGet m k).isSome := by
  induction m with
  | nil => simp at h
  | cons p m ih =>
    rw [List.map_cons, List.mem_cons] at h
    by_cases hp : p.1 = k
    · simp [jsGet_cons, hp]
    · rcases h with h | h
      · exact absurd h.symm hp
      · simpa [jsGet_cons, hp] using ih h

theorem jsGet_none_of_not_mem_keys {α : Type} {m : List (String × α)} {k : String}
    (h : k ∉ m.map (·.1)) : jsGet m k = none := by
  cases hf : jsGet m k with
  | none => rfl
  | some v => exact absurd (jsGet_mem_keys hf) h

theorem keys_jsSet {α : Type} (m : List (String × α)) (k : String) (v : α) :
    (jsSet m k v).map (·.1) =
      if (jsGet m k).isSome then m.map (·.1) else m.map (·.1) ++ [k] := by
  unfold jsSet
  by_cases hs : (jsGet m k).isSome
  · simp only [hs, if_true, List.map_map]
    refine List.map_congr_left (fun p _ => ?_)
    by_cases hp : p.1 = k
    · simp [Function.comp, hp]
    · simp [Function.comp, hp]
  · simp [hs]

theorem nodup_keys_jsSet {α : Type} {m : List (String × α)} (k : String) (v : α)
    (h : (m.map (·.1)).Nodup) : ((jsSet m k v).map (·.1)).Nodup := by
  rw [keys_jsSet]
  by_cases hs : (jsGet m k).isSome
  · simpa [hs]
  · have hk : k ∉ m.map (·.1) := fun hmem => hs (jsGet_isSome_of_mem_keys hmem)
    simp only [hs, if_false]
    refine List.Nodup.append h (List.nodup_singleton k) ?_
    intro a ha hb
    rw [List.mem_singleton] at hb
    exact hk (hb ▸ ha)

theorem mem_jsSet {α : Type} {m : List (String × α)} {k : String} {v : α}
    {x : String × α} (h : x ∈ jsSet m k v) : x ∈ m ∨ x = (k, v) := by
  unfold jsSet at h
  by_cases hs : (jsGet m k).isSome
  · simp only [hs, if_true] at h
    obtain ⟨p, hp, hx⟩ := List.mem_map.mp h
    by_cases hpk : p.1 = k
    · right; rw [← hx]; simp [hpk]
    · left; rw [← hx]; simpa [hpk] using hp
  · rw [if_neg hs] at h
    rcases List.mem_append.mp h with h | h
    · exact Or.inl h
    · right; simpa using h

theorem jsSet_ne_nil {α : Type} (m : List (String × α)) (k : String) (v : α) :
    jsSet m k v ≠ [] := by
  unfold jsSet
  by_cases hs : (jsGet m k).isSome
  · simp only [hs, if_true]
    intro hmap
    rcases m with _ | ⟨p, m⟩
    · rw [jsGet_nil] at hs; simp at hs
    · simp at hmap
  · simp [hs]

/-! Aggregation: what `buildDepsToInstall` records and keeps. -/

theorem findPackage_name {st : BootstrapState} {name : String} {version : Option String}
    {p : Package} (h : findPackage st name version = some p) : p.name = name := by
  have hpred := List.find?_some h
  simp only [Bool.and_eq_true, beq_iff_eq] at hpred
  exact hpred.1

theorem findPackage_mem {st : BootstrapState} {name : String} {version : Option String}
    {p : Package} (h : findPackage st name version = some p) : p ∈ st.packages :=
  List.mem_of_find?_eq_some h

theorem externalizeDep_fst (st : BootstrapState) (pkg : Package) (name : String) :
    (externalizeDep st pkg name).1 = name := by
  unfold externalizeDep
  cases hf : findPackage st name (some ((jsGet pkg.allDependencies name).getD "")) with
  | none => rfl
  | some p => exact findPackage_name hf

/-- Requester `x` is recorded in the aggregate under version `v` of
dependency `n`, with a positive requester count for that version. -/
def MemAgg (agg : Aggregate) (n v x : String) : Prop :=
  ∃ e ds, jsGet agg n = some e ∧ jsGet e.dependents v = some ds ∧ x ∈ ds ∧
    (jsGet e.versions v).getD 0 ≠ 0

theorem memAgg_recordDep_self (agg : Aggregate) (n v x : String) :
    MemAgg (recordDep agg n v x) n v x := by
  unfold recordDep MemAgg
  refine ⟨_, _, jsGet_jsSet_self _ _ _, jsGet_jsSet_self _ _ _, ?_, ?_⟩
  · simp
  · simp [jsGet_jsSet_self]

theorem memAgg_of_entry {agg : Aggregate} {n v x : String} {E : DepEntry}
    (hE : jsGet agg n = some E) {ds : List String}
    (hds : jsGet E.dependents v = some ds) (hx : x ∈ ds)
    (hc : (jsGet E.versions v).getD 0 ≠ 0) : MemAgg agg n v x :=
  ⟨E, ds, hE, hds, hx, hc⟩

theorem memAgg_recordDep_preserve {agg : Aggregate} {n v x : String}
    (h : MemAgg agg n v x) (n' v' x' : String) :
    MemAgg (recordDep agg n' v' x') n v x := by
  obtain ⟨e, ds, he, hds, hx, hc⟩ := h
  by_cases hn : n = n'
  · subst hn
    unfold recordDep
    simp only [he, Option.getD_some]
    by_cases hv : v = v'
    · subst hv
      have hcond : ¬ (((jsGet e.versions v).getD 0 == 0) = true) := by simpa using hc
      rw [if_neg hcond]
      refine memAgg_of_entry (jsGet_jsSet_self _ _ _) (jsGet_jsSet_self _ _ _) ?_ ?_
      · rw [hds]
        exact List.mem_append_left _ hx
      · simp [jsGet_jsSet_self]
    · refine memAgg_of_entry (jsGet_jsSet_self _ _ _) ?_ hx ?_
      · rw [jsGet_jsSet_ne _ _ _ hv]
        by_cases hcond : (((jsGet e.versions v').getD 0 == 0) = true)
        · rw [if_pos hcond]
          dsimp only
          rw [jsGet_jsSet_ne _ _ _ hv]
          exact hds
        · rw [if_neg hcond]
          exact hds
      · rw [jsGet_jsSet_ne _ _ _ hv]
        by_cases hcond : (((jsGet e.versions v').getD 0 == 0) = true)
        · rw [if_pos hcond]
          dsimp only
          rwa [jsGet_jsSet_ne _ _ _ hv]
        · rw [if_neg hcond]
          exact hc
  · unfold recordDep
    exact ⟨e, ds, by rwa [jsGet_jsSet_ne _ _ _ hn], hds, hx, hc⟩

theorem memAgg_foldRecord_preserve {n v x : String} (y : String) :
    ∀ (L : List (String × String)) (agg : Aggregate), MemAgg agg n v x →
      MemAgg (L.foldl (fun acc d => recordDep acc d.1 d.2 y) agg) n v x := by
  intro L
  induction L with
  | nil => intro agg h; exact h
  | cons d L ih =>
    intro agg h
    rw [List.foldl_cons]
    exact ih _ (memAgg_recordDep_preserve h _ _ _)

theorem memAgg_recordPackageDeps_preserve (st : BootstrapState) (pkg : Package)
    {agg : Aggregate} {n v x : String} (h : MemAgg agg n v x) :
    MemAgg (recordPackageDeps st agg pkg) n v x :=
  memAgg_foldRecord_preserve _ _ _ h

theorem memAgg_foldPackages_preserve (st : BootstrapState) {n v x : String} :
    ∀ (ps : List Package) (agg : Aggregate), MemAgg agg n v x →
      MemAgg (ps.foldl (recordPackageDeps st) agg) n v x := by
  intro ps
  induction ps with
  | nil => intro agg h; exact h
  | cons p ps ih =>
    intro agg h
    rw [List.foldl_cons]
    exact ih _ (memAgg_recordPackageDeps_preserve st p h)

theorem memAgg_foldRecord_of_mem (y : String) (L : List (String × String))
    (agg : Aggregate) (d : String × String) (hd : d ∈ L) :
    MemAgg (L.foldl (fun acc d => recordDep acc d.1 d.2 y) agg) d.1 d.2 y := by
  obtain ⟨s, t, rfl⟩ := List.append_of_mem hd
  rw [List.foldl_append, List.foldl_cons]
  exact memAgg_foldRecord_preserve y t _ (memAgg_recordDep_self _ _ _ _)

/-- Any declared dependency surviving the local-package filter is recorded
against its requester, under the version the map step produced. -/
theorem memAgg_of_declared (st : BootstrapState) {pkg : Package}
    (hpkg : pkg ∈ st.filteredPackages) {name range : String}
    (hdep : jsGet pkg.allDependencies name = some range)
    (hkeep : keepDep st pkg (externalizeDep st pkg name) = true) :
    MemAgg (buildDepsToInstall st) name (externalizeDep st pkg name).2 pkg.name := by
  obtain ⟨l₁, l₂, hsplit⟩ := List.append_of_mem hpkg
  unfold buildDepsToInstall
  rw [hsplit, List.foldl_append, List.foldl_cons]
  apply memAgg_foldPackages_preserve
  unfold recordPackageDeps
  have hmem : externalizeDep st pkg name ∈
      (((pkg.allDependencies.map (·.1)).map (externalizeDep st pkg)).filter
        (keepDep st pkg)) :=
    List.mem_filter.mpr ⟨List.mem_map_of_mem _ (jsGet_mem_keys hdep), hkeep⟩
  have hrec := memAgg_foldRecord_of_mem pkg.name _
    (l₁.foldl (recordPackageDeps st) (seedRootDeps st.repository.allDependencies))
    _ hmem
  rwa [externalizeDep_fst] at hrec

/-! Decomposition of the placement loop into per-entry contributions. -/

/-- The warnings the inner dependents loop emits for one version of one
dependency name. -/
def versionWarnings (name : String) (rv : Option String) (version : String)
    (ds : List String) : List Warning :=
  if rootVersionTruthy rv then
    ds.map (fun p => Warning.hoistPkg p name version (rv.getD ""))
  else []

/-- The leaf-install pushes the inner dependents loop performs for one
version of one dependency name. -/
def versionPushes (st : BootstrapState) (name version : String) (ds : List String) :
    List (String × LeafInstall) :=
  ds.map (fun p =>
    (p, { name := name, version := version,
          isSatisfied := ((findPackage st p none).map
            (fun q => q.hasDependencyInstalledB name)).getD false }))

/-- The `rootVersion` variable of the placement loop at one name: `none`
when the name is not hoisted. -/
def entryRootVersion (st : BootstrapState) (agg : Aggregate) (name : String) :
    Option String :=
  if hoistCheck st name then
    match commonVersionOf (entryDE agg name) with
    | some cv => some (jsOrElse (jsGet st.repository.allDependencies name) cv)
    | none => none
  else none

/-- The `EHOIST_ROOT_VERSION` warnings the placement loop emits while
processing one name (at most one). -/
def entryRootWarnings (st : BootstrapState) (agg : Aggregate) (name : String) :
    List Warning :=
  if hoistCheck st name then
    match commonVersionOf (entryDE agg name) with
    | some cv =>
      if (jsOrElse (jsGet st.repository.allDependencies name) cv) != cv then
        [Warning.hoistRoot name
          (jsOrElse (jsGet st.repository.allDependencies name) cv) cv]
      else []
    | none => []
  else []

/-- All warnings the placement loop emits while processing one name. -/
def entryWarnings (st : BootstrapState) (agg : Aggregate) (name : String) :
    List Warning :=
  entryRootWarnings st agg name ++
  (((entryDE agg name).versions.map (·.1)).map (fun version =>
    if some version == entryRootVersion st agg name then []
    else versionWarnings name (entryRootVersion st agg name) version
      ((jsGet (entryDE agg name).dependents version).getD []))).flatten

/-- The root installs the placement loop pushes while processing one name
(one when hoisted, none otherwise). -/
def entryRootInstalls (st : BootstrapState) (agg : Aggregate) (name : String) :
    List RootInstall :=
  if hoistCheck st name then
    match commonVersionOf (entryDE agg name) with
    | some cv =>
      [{ name := name,
         rootVersion := jsOrElse (jsGet st.repository.allDependencies name) cv,
         dependents := (((jsGet (entryDE agg name).dependents
             (jsOrElse (jsGet st.repository.allDependencies name) cv)).getD []).mapM
           (fun d => graphGet st.graphPackages d)).getD [],
         isSatisfied := st.repository.hasDependencyInstalledB name
           (jsOrElse (jsGet st.repository.allDependencies name) cv) }]
    | none => []
  else []

/-- The ordered leaf pushes the placement loop performs while processing
one name. -/
def entryLeafPushes (st : BootstrapState) (agg : Aggregate) (name : String) :
    List (String × LeafInstall) :=
  (((entryDE agg name).versions.map (·.1)).map (fun version =>
    if some version == entryRootVersion st agg name then []
    else versionPushes st name version
      ((jsGet (entryDE agg name).dependents version).getD []))).flatten

/-- One push of a leaf install onto a requester's list in the `leaves`
map, auto-vivifying the requester's entry. -/
def pushLeaf (m : List (String × List LeafInstall)) (pl : String × LeafInstall) :
    List (String × List LeafInstall) :=
  jsSet m pl.1 ((jsGet m pl.1).getD [] ++ [pl.2])

theorem leafStep_spec {st : BootstrapState} {name : String} {rv : Option String}
    {version : String} {acc acc' : InstallPlan} {p : String}
    (h : leafStep st name rv version acc p = some acc') :
    acc'.root = acc.root ∧
    acc'.warnings = acc.warnings ++ versionWarnings name rv version [p] ∧
    acc'.leaves = (versionPushes st name version [p]).foldl pushLeaf acc.leaves := by
  unfold leafStep at h
  cases hf : findPackage st p none with
  | none =>
    rw [hf] at h
    simp at h
  | some q =>
    rw [hf] at h
    simp only [Option.bind_eq_bind, Option.some_bind] at h
    cases h
    by_cases htr : rootVersionTruthy rv = true
    · refine ⟨by simp [htr], by simp [versionWarnings, htr], ?_⟩
      simp [versionPushes, pushLeaf, htr, hf]
    · refine ⟨by simp [htr], by simp [versionWarnings, htr], ?_⟩
      simp [versionPushes, pushLeaf, htr, hf]

theorem foldlM_leafStep_spec (st : BootstrapState) (name : String)
    (rv : Option String) (version : String) :
    ∀ (ds : List String) (acc acc' : InstallPlan),
      ds.foldlM (leafStep st name rv version) acc = some acc' →
      acc'.root = acc.root ∧
      acc'.warnings = acc.warnings ++ versionWarnings name rv version ds ∧
      acc'.leaves = (versionPushes st name version ds).foldl pushLeaf acc.leaves := by
  intro ds
  induction ds with
  | nil =>
    intro acc acc' h
    simp only [List.foldlM_nil] at h
    cases h
    refine ⟨rfl, by simp [versionWarnings], by simp [versionPushes]⟩
  | cons p ds ih =>
    intro acc acc' h
    rw [List.foldlM_cons] at h
    cases hstep : leafStep st name rv version acc p with
    | none => rw [hstep] at h; simp at h
    | some mid =>
      rw [hstep] at h
      simp only [Option.bind_eq_bind, Option.some_bind] at h
      obtain ⟨hr, hw, hl⟩ := ih mid acc' h
      obtain ⟨hr0, hw0, hl0⟩ := leafStep_spec hstep
      refine ⟨by rw [hr, hr0], ?_, ?_⟩
      · rw [hw, hw0]
        by_cases htr : rootVersionTruthy rv = true
        · simp [versionWarnings, htr]
        · simp [versionWarnings, htr]
      · rw [hl, hl0]
        simp [versionPushes]

theorem versionStep_spec {st : BootstrapState} {e : DepEntry} {name : String}
    {rv : Option String} {acc acc' : InstallPlan} {version : String}
    (h : versionStep st e name rv acc version = some acc') :
    acc'.root = acc.root ∧
    acc'.warnings = acc.warnings ++
      (if some version == rv then []
       else versionWarnings name rv version ((jsGet e.dependents version).getD [])) ∧
    acc'.leaves =
      ((if some version == rv then []
        else versionPushes st name version
          ((jsGet e.dependents version).getD []))).foldl pushLeaf acc.leaves := by
  unfold versionStep at h
  by_cases hskip : (some version == rv) = true
  · rw [if_pos hskip] at h
    cases h
    simp [hskip]
  · rw [if_neg hskip] at h
    have := foldlM_leafStep_spec st name rv version _ _ _ h
    simpa [hskip] using this

theorem foldlM_versionStep_spec (st : BootstrapState) (e : DepEntry) (name : String)
    (rv : Option String) :
    ∀ (vs : List String) (acc acc' : InstallPlan),
      vs.foldlM (versionStep st e name rv) acc = some acc' →
      acc'.root = acc.root ∧
      acc'.warnings = acc.warnings ++
        (vs.map (fun version =>
          if some version == rv then []
          else versionWarnings name rv version
            ((jsGet e.dependents version).getD []))).flatten ∧
      acc'.leaves =
        ((vs.map (fun version =>
          if some version == rv then []
          else versionPushes st name version
            ((jsGet e.dependents version).getD []))).flatten).foldl
          pushLeaf acc.leaves := by
  intro vs
  induction vs with
  | nil =>
    intro acc acc' h
    simp only [List.foldlM_nil] at h
    cases h
    exact ⟨rfl, by simp, by simp⟩
  | cons version vs ih =>
    intro acc acc' h
    rw [List.foldlM_cons] at h
    cases hstep : versionStep st e name rv acc version with
    | none => rw [hstep] at h; simp at h
    | some mid =>
      rw [hstep] at h
      simp only [Option.bind_eq_bind, Option.some_bind] at h
      obtain ⟨hr, hw, hl⟩ := ih mid acc' h
      obtain ⟨hr0, hw0, hl0⟩ := versionStep_spec hstep
      refine ⟨by rw [hr, hr0], ?_, ?_⟩
      · rw [hw, hw0]
        simp [List.append_assoc]
      · rw [hl, hl0]
        simp [List.foldl_append]

theorem hoistWarn_root (acc : InstallPlan) (name rootVersion commonVersion : String) :
    (hoistWarn acc name rootVersion commonVersion).root = acc.root := by
  unfold hoistWarn
  by_cases h : (rootVersion != commonVersion) = true
  · rw [if_pos h]
  · rw [if_neg h]

theorem hoistWarn_leaves (acc : InstallPlan) (name rootVersion commonVersion : String) :
    (hoistWarn acc name rootVersion commonVersion).leaves = acc.leaves := by
  unfold hoistWarn
  by_cases h : (rootVersion != commonVersion) = true
  · rw [if_pos h]
  · rw [if_neg h]

theorem hoistWarn_warnings (acc : InstallPlan) (name rootVersion commonVersion : String) :
    (hoistWarn acc name rootVersion commonVersion).warnings = acc.warnings ++
      (if rootVersion != commonVersion then
        [Warning.hoistRoot name rootVersion commonVersion] else []) := by
  unfold hoistWarn
  by_cases h : (rootVersion != commonVersion) = true
  · rw [if_pos h, if_pos h]
  · rw [if_neg h, if_neg h]
    simp

theorem hoistEntry_spec {st : BootstrapState} {agg : Aggregate} {acc : InstallPlan}
    {name : String} {rv : Option String} {acc₂ : InstallPlan}
    (h : hoistEntry st agg acc name = some (rv, acc₂)) :
    rv = entryRootVersion st agg name ∧
    acc₂.root = acc.root ++ entryRootInstalls st agg name ∧
    acc₂.warnings = acc.warnings ++ entryRootWarnings st agg name ∧
    acc₂.leaves = acc.leaves := by
  unfold hoistEntry at h
  by_cases hh : hoistCheck st name = true
  · rw [if_pos hh] at h
    cases hcv : commonVersionOf (entryDE agg name) with
    | none => simp only [hcv] at h; exact absurd h (by simp)
    | some cv =>
      simp only [hcv] at h
      cases hmap : ((jsGet (entryDE agg name).dependents
          (jsOrElse (jsGet st.repository.allDependencies name) cv)).getD []).mapM
          (fun d => graphGet st.graphPackages d) with
      | none => simp only [hmap] at h; exact absurd h (by simp)
      | some deps =>
        simp only [hmap, Option.some_inj, Prod.mk.injEq] at h
        obtain ⟨hrv, hacc⟩ := h
        refine ⟨by rw [← hrv, entryRootVersion, if_pos hh, hcv], ?_, ?_, ?_⟩
        · rw [← hacc]
          unfold pushRoot
          rw [hoistWarn_root]
          simp only [entryRootInstalls, hh, if_true, hcv, hmap, Option.getD_some]
        · rw [← hacc]
          unfold pushRoot
          simp only [hoistWarn_warnings, entryRootWarnings, hh, if_true, hcv]
        · rw [← hacc]
          unfold pushRoot
          simp only [hoistWarn_leaves]
  · rw [if_neg hh] at h
    simp only [Option.some_inj, Prod.mk.injEq] at h
    obtain ⟨hrv, hacc⟩ := h
    rw [← hrv, ← hacc]
    refine ⟨by rw [entryRootVersion, if_neg hh], ?_, ?_, rfl⟩
    · rw [entryRootInstalls, if_neg hh]
      simp
    · rw [entryRootWarnings, if_neg hh]
      simp

theorem processEntry_spec {st : BootstrapState} {agg : Aggregate} {acc : InstallPlan}
    {name : String} {acc' : InstallPlan}
    (h : processEntry st agg acc name = some acc') :
    acc'.root = acc.root ++ entryRootInstalls st agg name ∧
    acc'.warnings = acc.warnings ++ entryWarnings st agg name ∧
    acc'.leaves = (entryLeafPushes st agg name).foldl pushLeaf acc.leaves := by
  unfold processEntry at h
  cases hhe : hoistEntry st agg acc name with
  | none => rw [hhe] at h; exact absurd h (by simp)
  | some x =>
    obtain ⟨rv, acc₂⟩ := x
    rw [hhe] at h
    simp only [Option.bind_eq_bind, Option.some_bind] at h
    obtain ⟨hrv, hr2, hw2, hl2⟩ := hoistEntry_spec hhe
    subst hrv
    obtain ⟨hr, hw, hl⟩ := foldlM_versionStep_spec st (entryDE agg name) name _ _ _ _ h
    refine ⟨by rw [hr, hr2], ?_, ?_⟩
    · rw [hw, hw2]
      simp [entryWarnings, List.append_assoc]
    · rw [hl, hl2]
      rfl

theorem foldlM_processEntry_spec (st : BootstrapState) (agg : Aggregate) :
    ∀ (names : List String) (acc P : InstallPlan),
      names.foldlM (processEntry st agg) acc = some P →
      P.root = acc.root ++ (names.map (entryRootInstalls st agg)).flatten ∧
      P.warnings = acc.warnings ++ (names.map (entryWarnings st agg)).flatten ∧
      P.leaves = ((names.map (entryLeafPushes st agg)).flatten).foldl pushLeaf acc.leaves := by
  intro names
  induction names with
  | nil =>
    intro acc P h
    simp only [List.foldlM_nil] at h
    cases h
    exact ⟨by simp, by simp, by simp⟩
  | cons name names ih =>
    intro acc P h
    rw [List.foldlM_cons] at h
    cases hstep : processEntry st agg acc name with
    | none => rw [hstep] at h; exact absurd h (by simp)
    | some mid =>
      rw [hstep] at h
      simp only [Option.bind_eq_bind, Option.some_bind] at h
      obtain ⟨hr, hw, hl⟩ := ih mid P h
      obtain ⟨hr0, hw0, hl0⟩ := processEntry_spec hstep
      refine ⟨?_, ?_, ?_⟩
      · rw [hr, hr0]; simp [List.append_assoc]
      · rw [hw, hw0]; simp [List.append_assoc]
      · rw [hl, hl0]; simp [List.foldl_append]

/-- Decomposition of a successfully computed plan into per-aggregate-entry
contributions, in aggregate key order. -/
theorem plan_spec {st : BootstrapState} {P : InstallPlan}
    (h : getDependenciesToInstall st = some P) :
    P.root = (((buildDepsToInstall st).map (·.1)).map
        (entryRootInstalls st (buildDepsToInstall st))).flatten ∧
    P.warnings = (((buildDepsToInstall st).map (·.1)).map
        (entryWarnings st (buildDepsToInstall st))).flatten ∧
    P.leaves = ((((buildDepsToInstall st).map (·.1)).map
        (entryLeafPushes st (buildDepsToInstall st))).flatten).foldl pushLeaf [] := by
  unfold getDependenciesToInstall at h
  have := foldlM_processEntry_spec st (buildDepsToInstall st) _ _ _ h
  simpa using this

theorem foldlM_mem_some {α β : Type} (f : β → α → Option β) :
    ∀ {l : List α} {b c : β}, l.foldlM f b = some c → ∀ x ∈ l, ∃ b₁ b₂, f b₁ x = some b₂ := by
  intro l
  induction l with
  | nil => intro b c h x hx; simp at hx
  | cons a l ih =>
    intro b c h x hx
    rw [List.foldlM_cons] at h
    cases hstep : f b a with
    | none => rw [hstep] at h; exact absurd h (by simp)
    | some mid =>
      rw [hstep] at h
      simp only [Option.bind_eq_bind, Option.some_bind] at h
      rcases List.mem_cons.mp hx with rfl | hx'
      · exact ⟨b, mid, hstep⟩
      · exact ih h x hx'

theorem processEntry_hoistEntry {st : BootstrapState} {agg : Aggregate}
    {acc : InstallPlan} {name : String} {acc' : InstallPlan}
    (h : processEntry st agg acc name = some acc') :
    ∃ x, hoistEntry st agg acc name = some x := by
  unfold processEntry at h
  cases hhe : hoistEntry st agg acc name with
  | none => rw [hhe] at h; exact absurd h (by simp)
  | some x => exact ⟨x, rfl⟩

theorem hoistEntry_commonVersion {st : BootstrapState} {agg : Aggregate}
    {acc : InstallPlan} {name : String} {x : Option String × InstallPlan}
    (h : hoistEntry st agg acc name = some x) (hh : hoistCheck st name = true) :
    ∃ cv, commonVersionOf (entryDE agg name) = some cv ∧
      ∃ deps, ((jsGet (entryDE agg name).dependents
        (jsOrElse (jsGet st.repository.allDependencies name) cv)).getD []).mapM
        (fun d => graphGet st.graphPackages d) = some deps := by
  unfold hoistEntry at h
  rw [if_pos hh] at h
  cases hcv : commonVersionOf (entryDE agg name) with
  | none => simp only [hcv] at h; exact absurd h (by simp)
  | some cv =>
    simp only [hcv] at h
    cases hmap : ((jsGet (entryDE agg name).dependents
        (jsOrElse (jsGet st.repository.allDependencies name) cv)).getD []).mapM
        (fun d => graphGet st.graphPackages d) with
    | none => simp only [hmap] at h; exact absurd h (by simp)
    | some deps => exact ⟨cv, rfl, deps, hmap⟩

/-! Structural invariants of the aggregate. -/

theorem jsGet_jsSet_cases {α : Type} {m : List (String × α)} {k : String} {v : α}
    {n : String} {e : α} (h : jsGet (jsSet m k v) n = some e) :
    (n = k ∧ e = v) ∨ (n ≠ k ∧ jsGet m n = some e) := by
  by_cases hn : n = k
  · subst hn
    rw [jsGet_jsSet_self] at h
    exact Or.inl ⟨rfl, by injection h with hh; exact hh.symm⟩
  · rw [jsGet_jsSet_ne _ _ _ hn] at h
    exact Or.inr ⟨hn, h⟩

/-- The falsy-reset step of `recordDep`, split out of the entry update. -/
def recordReset (e : DepEntry) (version : String) : DepEntry :=
  if (jsGet e.versions version).getD 0 == 0 then
    { versions := jsSet e.versions version 0,
      dependents := jsSet e.dependents version [] }
  else e

/-- The whole entry update `recordDep` performs at the recorded name. -/
def recordEntry (e : DepEntry) (version pkgName : String) : DepEntry :=
  { versions := jsSet (recordReset e version).versions version
      ((jsGet (recordReset e version).versions version).getD 0 + 1),
    dependents := jsSet (recordReset e version).dependents version
      ((jsGet (recordReset e version).dependents version).getD [] ++ [pkgName]) }

theorem recordDep_eq (agg : Aggregate) (name version pkgName : String) :
    recordDep agg name version pkgName =
      jsSet agg name (recordEntry ((jsGet agg name).getD ⟨[], []⟩) version pkgName) := rfl

theorem recordReset_versions_ne {e : DepEntry} {version v : String} (h : v ≠ version) :
    jsGet (recordReset e version).versions v = jsGet e.versions v := by
  unfold recordReset
  by_cases hc : ((jsGet e.versions version).getD 0 == 0) = true
  · rw [if_pos hc]
    exact jsGet_jsSet_ne _ _ _ h
  · rw [if_neg hc]

theorem recordReset_dependents_ne {e : DepEntry} {version v : String} (h : v ≠ version) :
    jsGet (recordReset e version).dependents v = jsGet e.dependents v := by
  unfold recordReset
  by_cases hc : ((jsGet e.versions version).getD 0 == 0) = true
  · rw [if_pos hc]
    exact jsGet_jsSet_ne _ _ _ h
  · rw [if_neg hc]

/-- Well-formedness of one aggregate entry: no duplicate version keys, a
non-empty version map, and a positive count behind every non-empty
dependents list. -/
def EntryWF (e : DepEntry) : Prop :=
  (e.versions.map (·.1)).Nodup ∧ e.versions ≠ [] ∧
  ∀ v ds, jsGet e.dependents v = some ds → ds ≠ [] →
    (jsGet e.versions v).getD 0 ≠ 0

/-- Well-formedness of the aggregate: no duplicate names, and every entry
well formed. -/
def AggWF (agg : Aggregate) : Prop :=
  (agg.map (·.1)).Nodup ∧ ∀ n e, jsGet agg n = some e → EntryWF e

theorem recordEntry_WF {e : DepEntry} (version pkgName : String)
    (hnd : (e.versions.map (·.1)).Nodup)
    (hpos : ∀ v ds, jsGet e.dependents v = some ds → ds ≠ [] →
      (jsGet e.versions v).getD 0 ≠ 0) :
    EntryWF (recordEntry e version pkgName) := by
  have hrnd : ((recordReset e version).versions.map (·.1)).Nodup := by
    unfold recordReset
    by_cases hc : ((jsGet e.versions version).getD 0 == 0) = true
    · rw [if_pos hc]
      exact nodup_keys_jsSet _ _ hnd
    · rw [if_neg hc]
      exact hnd
  refine ⟨nodup_keys_jsSet _ _ hrnd, jsSet_ne_nil _ _ _, ?_⟩
  intro v ds hds hne
  unfold recordEntry at hds ⊢
  rcases jsGet_jsSet_cases hds with ⟨rfl, rfl⟩ | ⟨hv, hds'⟩
  · rw [jsGet_jsSet_self]
    simp
  · rw [jsGet_jsSet_ne _ _ _ hv]
    rw [recordReset_dependents_ne hv] at hds'
    rw [recordReset_versions_ne hv]
    exact hpos v ds hds' hne

theorem recordDep_AggWF {agg : Aggregate} (h : AggWF agg) (n v x : String) :
    AggWF (recordDep agg n v x) := by
  obtain ⟨hnd, hent⟩ := h
  rw [recordDep_eq]
  refine ⟨nodup_keys_jsSet _ _ hnd, ?_⟩
  intro n' e' he'
  rcases jsGet_jsSet_cases he' with ⟨hn', hee⟩ | ⟨hne, he''⟩
  · subst hn'
    subst hee
    cases hget : jsGet agg n' with
    | none =>
      exact recordEntry_WF v x (by simp)
        (by intro v' ds hds hne; simp [jsGet_nil] at hds)
    | some e₀ =>
      obtain ⟨h1, _, h3⟩ := hent n' e₀ hget
      exact recordEntry_WF v x h1 h3
  · exact hent n' e' he''

theorem foldRecord_AggWF {y : String} :
    ∀ (L : List (String × String)) {agg : Aggregate}, AggWF agg →
      AggWF (L.foldl (fun acc d => recordDep acc d.1 d.2 y) agg) := by
  intro L
  induction L with
  | nil => intro agg h; exact h
  | cons d L ih =>
    intro agg h
    rw [List.foldl_cons]
    exact ih (recordDep_AggWF h _ _ _)

theorem recordPackageDeps_AggWF (st : BootstrapState) (pkg : Package)
    {agg : Aggregate} (h : AggWF agg) : AggWF (recordPackageDeps st agg pkg) :=
  foldRecord_AggWF _ h

theorem seedRootDeps_AggWF (rootDeps : List (String × String)) :
    AggWF (seedRootDeps rootDeps) := by
  unfold seedRootDeps
  generalize rootDeps.map (·.1) = ks
  induction ks using List.reverseRecOn with
  | nil =>
    refine ⟨by simp, ?_⟩
    intro n e h
    rw [List.foldl_nil, jsGet_nil] at h
    exact absurd h (by simp)
  | append_singleton ks k ih =>
    rw [List.foldl_append, List.foldl_cons, List.foldl_nil]
    obtain ⟨hnd, hent⟩ := ih
    refine ⟨nodup_keys_jsSet _ _ hnd, ?_⟩
    intro n e he
    rcases jsGet_jsSet_cases he with ⟨rfl, rfl⟩ | ⟨hne, he'⟩
    · refine ⟨by simp, by simp, ?_⟩
      intro v ds hds hne'
      rw [jsGet_cons] at hds
      by_cases hv : ((jsGet rootDeps n).getD "") = v
      · rw [if_pos hv] at hds
        injection hds with hds
        exact absurd hds.symm hne'
      · rw [if_neg hv] at hds
        rw [jsGet_nil] at hds
        exact absurd hds (by simp)
    · exact hent n e he'

theorem buildDepsToInstall_AggWF (st : BootstrapState) :
    AggWF (buildDepsToInstall st) := by
  unfold buildDepsToInstall
  generalize st.filteredPackages = ps
  induction ps using List.reverseRecOn with
  | nil => exact seedRootDeps_AggWF _
  | append_singleton ps p ih =>
    rw [List.foldl_append, List.foldl_cons, List.foldl_nil]
    exact recordPackageDeps_AggWF st p ih

theorem nodup_append_singleton {α : Type} {l : List α} {a : α}
    (h : l.Nodup) (ha : a ∉ l) : (l ++ [a]).Nodup :=
  List.Nodup.append h (List.nodup_singleton a)
    (fun x hx hxa => ha ((List.mem_singleton.mp hxa) ▸ hx))

/-- Every dependents list in the aggregate is duplicate-free and contains
only the given requester names. -/
def AggDeps (names : List String) (agg : Aggregate) : Prop :=
  ∀ n e, jsGet agg n = some e → ∀ v ds, jsGet e.dependents v = some ds →
    ds.Nodup ∧ ∀ y ∈ ds, y ∈ names

/-- The invariant maintained while one requester `p` is being recorded:
`p` may already appear, but only in entries whose names were already
processed (`dks`), and at most once. -/
def AggDepsIn (names : List String) (p : String) (dks : List String)
    (agg : Aggregate) : Prop :=
  ∀ n e, jsGet agg n = some e → ∀ v ds, jsGet e.dependents v = some ds →
    ds.Nodup ∧ (∀ y ∈ ds, y ∈ names ∨ y = p) ∧ (p ∈ ds → n ∈ dks)

theorem recordReset_dependents_self (e : DepEntry) (vk : String) :
    jsGet (recordReset e vk).dependents vk = some [] ∨
    jsGet (recordReset e vk).dependents vk = jsGet e.dependents vk := by
  unfold recordReset
  by_cases hc : ((jsGet e.versions vk).getD 0 == 0) = true
  · rw [if_pos hc]
    exact Or.inl (jsGet_jsSet_self _ _ _)
  · rw [if_neg hc]
    exact Or.inr rfl

theorem recordDep_AggDepsIn {names : List String} {p : String} {dks : List String}
    {agg : Aggregate} (h : AggDepsIn names p dks agg) {nk : String} (vk : String)
    (hnk : nk ∉ dks) :
    AggDepsIn names p (dks ++ [nk]) (recordDep agg nk vk p) := by
  intro n e he v ds hds
  rw [recordDep_eq] at he
  rcases jsGet_jsSet_cases he with ⟨hn, hee⟩ | ⟨hne, he'⟩
  · subst hn
    subst hee
    unfold recordEntry at hds
    rcases jsGet_jsSet_cases hds with ⟨hv, hds₂⟩ | ⟨hvne, hds'⟩
    · subst hv
      subst hds₂
      have hds₁ : ((jsGet (recordReset ((jsGet agg n).getD ⟨[], []⟩) v).dependents v).getD
            []).Nodup ∧
          (∀ y ∈ (jsGet (recordReset ((jsGet agg n).getD ⟨[], []⟩) v).dependents v).getD [],
            y ∈ names ∨ y = p) ∧
          p ∉ (jsGet (recordReset ((jsGet agg n).getD ⟨[], []⟩) v).dependents v).getD [] := by
        rcases recordReset_dependents_self ((jsGet agg n).getD ⟨[], []⟩) v with h1 | h1
        · rw [h1]
          exact ⟨by simp, by simp, by simp⟩
        · rw [h1]
          cases hget : jsGet agg n with
          | none =>
            simp [jsGet_nil]
          | some e₀ =>
            simp only [hget, Option.getD_some]
            cases hd0 : jsGet e₀.dependents v with
            | none => exact ⟨by simp, by simp, by simp⟩
            | some ds₀ =>
              obtain ⟨nd, sub, himp⟩ := h n e₀ hget v ds₀ hd0
              simp only [Option.getD_some]
              exact ⟨nd, sub, fun hmem => hnk (himp hmem)⟩
      obtain ⟨nd1, sub1, hp1⟩ := hds₁
      refine ⟨nodup_append_singleton nd1 hp1, ?_, ?_⟩
      · intro y hy
        rcases List.mem_append.mp hy with hy | hy
        · exact sub1 y hy
        · exact Or.inr (by simpa using hy)
      · intro _
        exact List.mem_append_right _ (by simp)
    · rw [recordReset_dependents_ne hvne] at hds'
      cases hget : jsGet agg n with
      | none =>
        rw [hget] at hds'
        simp [jsGet_nil] at hds'
      | some e₀ =>
        rw [hget] at hds'
        simp only [Option.getD_some] at hds'
        obtain ⟨nd, sub, himp⟩ := h n e₀ hget v ds hds'
        exact ⟨nd, sub, fun hmem => absurd (himp hmem) hnk⟩
  · obtain ⟨nd, sub, himp⟩ := h n e he' v ds hds
    exact ⟨nd, sub, fun hmem => List.mem_append_left _ (himp hmem)⟩

theorem foldRecord_AggDepsIn {names : List String} {p : String} :
    ∀ (L : List (String × String)) (dks : List String) (agg : Aggregate),
      (dks ++ L.map (·.1)).Nodup →
      AggDepsIn names p dks agg →
      AggDepsIn names p (dks ++ L.map (·.1))
        (L.foldl (fun acc d => recordDep acc d.1 d.2 p) agg) := by
  intro L
  induction L with
  | nil =>
    intro dks agg _ hin
    simpa using hin
  | cons d L ih =>
    intro dks agg hnd hin
    rw [List.foldl_cons]
    have hd1 : d.1 ∉ dks := by
      intro hmem
      exact (List.disjoint_of_nodup_append hnd) hmem (by simp)
    have hstep := recordDep_AggDepsIn hin d.2 hd1
    have hnd' : ((dks ++ [d.1]) ++ L.map (·.1)).Nodup := by
      simpa [List.append_assoc] using hnd
    have := ih (dks ++ [d.1]) _ hnd' hstep
    simpa [List.append_assoc] using this

theorem recordPackageDeps_AggDeps (st : BootstrapState) {names : List String}
    {agg : Aggregate} (p : Package)
    (hp : p.name ∉ names)
    (hkeys : (p.allDependencies.map (·.1)).Nodup)
    (h : AggDeps names agg) :
    AggDeps (names ++ [p.name]) (recordPackageDeps st agg p) := by
  unfold recordPackageDeps
  have hLkeys : ((((p.allDependencies.map (·.1)).map (externalizeDep st p)).filter
      (keepDep st p)).map (·.1)).Nodup := by
    have hsub := (List.filter_sublist
      ((p.allDependencies.map (·.1)).map (externalizeDep st p))
      (p := keepDep st p)).map (·.1)
    have heq : (((p.allDependencies.map (·.1)).map (externalizeDep st p)).map (·.1)) =
        p.allDependencies.map (·.1) := by
      rw [List.map_map]
      exact (List.map_congr_left (fun k _ => externalizeDep_fst st p k)).trans
        (List.map_id' _)
    rw [heq] at hsub
    exact hsub.nodup hkeys
  have hin : AggDepsIn names p.name [] agg := by
    intro n e he v ds hds
    obtain ⟨nd, sub⟩ := h n e he v ds hds
    exact ⟨nd, fun y hy => Or.inl (sub y hy), fun hmem => absurd (sub _ hmem) hp⟩
  have hnil : (([] : List String) ++
      ((((p.allDependencies.map (·.1)).map (externalizeDep st p)).filter
        (keepDep st p)).map (·.1))).Nodup := by
    simpa using hLkeys
  have hres := foldRecord_AggDepsIn
    (((p.allDependencies.map (·.1)).map (externalizeDep st p)).filter (keepDep st p))
    [] agg hnil hin
  intro n e he v ds hds
  obtain ⟨nd, sub, _⟩ := hres n e he v ds hds
  refine ⟨nd, fun y hy => ?_⟩
  rcases sub y hy with h1 | h1
  · exact List.mem_append_left _ h1
  · rw [h1]
    exact List.mem_append_right _ (by simp)

theorem foldPackages_AggDeps (st : BootstrapState) :
    ∀ (ps : List Package) (names : List String) (agg : Aggregate),
      (∀ q ∈ ps, q.name ∉ names) →
      ((ps.map (·.name)).Nodup) →
      (∀ q ∈ ps, (q.allDependencies.map (·.1)).Nodup) →
      AggDeps names agg →
      AggDeps (names ++ ps.map (·.name)) (ps.foldl (recordPackageDeps st) agg) := by
  intro ps
  induction ps with
  | nil =>
    intro names agg _ _ _ h
    simpa using h
  | cons p ps ih =>
    intro names agg hnew hnd hkeys h
    rw [List.foldl_cons]
    have h1 := recordPackageDeps_AggDeps st p (hnew p (by simp)) (hkeys p (by simp)) h
    rw [List.map_cons, List.nodup_cons] at hnd
    have hnew' : ∀ q ∈ ps, q.name ∉ names ++ [p.name] := by
      intro q hq hmem
      rcases List.mem_append.mp hmem with hh | hh
      · exact hnew q (List.mem_cons_of_mem _ hq) hh
      · have hqp : q.name = p.name := by simpa using hh
        exact hnd.1 (hqp ▸ List.mem_map_of_mem (·.name) hq)
    have := ih (names ++ [p.name]) _ hnew' hnd.2
      (fun q hq => hkeys q (List.mem_cons_of_mem _ hq)) h1
    simpa [List.append_assoc] using this

/-- Every entry the seeding step creates: a single version key carrying
the root's range at count zero with no dependents. -/
theorem seedRootDeps_shape (rd : List (String × String)) :
    ∀ n e, jsGet (seedRootDeps rd) n = some e →
      e = ⟨[((jsGet rd n).getD "", 0)], [((jsGet rd n).getD "", [])]⟩ := by
  unfold seedRootDeps
  generalize rd.map (·.1) = ks
  induction ks using List.reverseRecOn with
  | nil =>
    intro n e h
    rw [List.foldl_nil, jsGet_nil] at h
    exact absurd h (by simp)
  | append_singleton ks k ih =>
    intro n e h
    rw [List.foldl_append, List.foldl_cons, List.foldl_nil] at h
    rcases jsGet_jsSet_cases h with ⟨hn, hee⟩ | ⟨hne, h'⟩
    · subst hn
      exact hee
    · exact ih n e h'

theorem seedRootDeps_AggDeps (rd : List (String × String)) (names : List String) :
    AggDeps names (seedRootDeps rd) := by
  intro n e he v ds hds
  rw [seedRootDeps_shape rd n e he] at hds
  rw [jsGet_cons] at hds
  by_cases hv : ((jsGet rd n).getD "") = v
  · rw [if_pos hv] at hds
    injection hds with hds
    rw [← hds]
    exact ⟨by simp, by simp⟩
  · rw [if_neg hv, jsGet_nil] at hds
    exact absurd hds (by simp)

/-- Under unique package names and unique dependency keys, every
dependents list in the aggregate is duplicate-free and holds only
filtered package names. -/
theorem buildDeps_AggDeps (st : BootstrapState)
    (hnames : (st.filteredPackages.map (·.name)).Nodup)
    (hkeys : ∀ q ∈ st.filteredPackages, (q.allDependencies.map (·.1)).Nodup) :
    AggDeps (st.filteredPackages.map (·.name)) (buildDepsToInstall st) := by
  unfold buildDepsToInstall
  have := foldPackages_AggDeps st st.filteredPackages [] _
    (fun q _ h => by simp at h) hnames hkeys
    (seedRootDeps_AggDeps st.repository.allDependencies [])
  simpa using this

/-! Entries no filtered package records stay exactly as seeded. -/

theorem recordDep_untouched {agg : Aggregate} {nm n v x : String} (h : n ≠ nm) :
    jsGet (recordDep agg n v x) nm = jsGet agg nm := by
  rw [recordDep_eq]
  exact jsGet_jsSet_ne _ _ _ (fun hh => h hh.symm)

theorem foldRecord_untouched {nm y : String} :
    ∀ (L : List (String × String)) (agg : Aggregate), (∀ d ∈ L, d.1 ≠ nm) →
      jsGet (L.foldl (fun acc d => recordDep acc d.1 d.2 y) agg) nm = jsGet agg nm := by
  intro L
  induction L with
  | nil => intro agg _; rfl
  | cons d L ih =>
    intro agg hL
    rw [List.foldl_cons, ih _ (fun d' hd' => hL d' (List.mem_cons_of_mem _ hd')),
      recordDep_untouched (hL d (by simp))]

theorem recordPackageDeps_untouched (st : BootstrapState) {nm : String}
    (pkg : Package) (agg : Aggregate) (h : nm ∉ pkg.allDependencies.map (·.1)) :
    jsGet (recordPackageDeps st agg pkg) nm = jsGet agg nm := by
  unfold recordPackageDeps
  apply foldRecord_untouched
  intro d hd
  obtain ⟨d', hd', rfl⟩ := List.mem_map.mp (List.mem_of_mem_filter hd)
  rw [externalizeDep_fst]
  intro heq
  exact h (heq ▸ hd')

theorem foldPackages_untouched (st : BootstrapState) {nm : String} :
    ∀ (ps : List Package) (agg : Aggregate),
      (∀ pkg ∈ ps, nm ∉ pkg.allDependencies.map (·.1)) →
      jsGet (ps.foldl (recordPackageDeps st) agg) nm = jsGet agg nm := by
  intro ps
  induction ps with
  | nil => intro agg _; rfl
  | cons p ps ih =>
    intro agg h
    rw [List.foldl_cons, ih _ (fun q hq => h q (List.mem_cons_of_mem _ hq)),
      recordPackageDeps_untouched st p _ (h p (by simp))]

theorem buildDeps_untouched (st : BootstrapState) {nm : String}
    (h : ∀ pkg ∈ st.filteredPackages, nm ∉ pkg.allDependencies.map (·.1)) :
    jsGet (buildDepsToInstall st) nm =
      jsGet (seedRootDeps st.repository.allDependencies) nm := by
  unfold buildDepsToInstall
  exact foldPackages_untouched st st.filteredPackages _ h

theorem jsGet_isSome_jsSet_mono {α : Type} {m : List (String × α)} {k : String}
    (k' : String) (v : α) (h : (jsGet m k).isSome) :
    (jsGet (jsSet m k' v) k).isSome := by
  by_cases hk : k = k'
  · subst hk
    rw [jsGet_jsSet_self]
    rfl
  · rwa [jsGet_jsSet_ne _ _ _ hk]

theorem jsGet_isSome_foldl_jsSet {α : Type} (g : String → α) :
    ∀ (ks : List String) (m : List (String × α)) (k : String),
      (jsGet m k).isSome →
      (jsGet (ks.foldl (fun acc n => jsSet acc n (g n)) m) k).isSome := by
  intro ks
  induction ks with
  | nil => intro m k h; exact h
  | cons a ks ih =>
    intro m k h
    rw [List.foldl_cons]
    exact ih _ _ (jsGet_isSome_jsSet_mono a (g a) h)

theorem jsGet_isSome_foldl_jsSet_mem {α : Type} (g : String → α) :
    ∀ (ks : List String) (m : List (String × α)) (k : String),
      k ∈ ks →
      (jsGet (ks.foldl (fun acc n => jsSet acc n (g n)) m) k).isSome := by
  intro ks m k hk
  obtain ⟨s, t, rfl⟩ := List.append_of_mem hk
  rw [List.foldl_append, List.foldl_cons]
  apply jsGet_isSome_foldl_jsSet
  rw [jsGet_jsSet_self]
  rfl

/-- The seeded entry at a name present in the root manifest. -/
theorem seedRootDeps_lookup (rd : List (String × String)) {nm r : String}
    (h : jsGet rd nm = some r) :
    jsGet (seedRootDeps rd) nm = some ⟨[(r, 0)], [(r, [])]⟩ := by
  have hk : nm ∈ rd.map (·.1) := jsGet_mem_keys h
  have hks : (jsGet (seedRootDeps rd) nm).isSome := by
    unfold seedRootDeps
    exact jsGet_isSome_foldl_jsSet_mem
      (fun name => (⟨[((jsGet rd name).getD "", 0)], [((jsGet rd name).getD "", [])]⟩ :
        DepEntry))
      _ _ _ hk
  obtain ⟨e, he⟩ := Option.isSome_iff_exists.mp hks
  rw [he, seedRootDeps_shape rd nm e he, h]
  rfl

/-! Facts about the leaf-push fold that assembles `leaves`. -/

theorem pushLeaf_preserve {m : List (String × List LeafInstall)} {q : String}
    {l : LeafInstall} (pl : String × LeafInstall)
    (h : ∃ ds, jsGet m q = some ds ∧ l ∈ ds) :
    ∃ ds, jsGet (pushLeaf m pl) q = some ds ∧ l ∈ ds := by
  obtain ⟨ds, hds, hl⟩ := h
  unfold pushLeaf
  by_cases hq : q = pl.1
  · subst hq
    exact ⟨_, jsGet_jsSet_self _ _ _, by rw [hds]; exact List.mem_append_left _ hl⟩
  · exact ⟨ds, by rwa [jsGet_jsSet_ne _ _ _ hq], hl⟩

theorem pushLeaf_self (m : List (String × List LeafInstall)) (pl : String × LeafInstall) :
    ∃ ds, jsGet (pushLeaf m pl) pl.1 = some ds ∧ pl.2 ∈ ds :=
  ⟨_, jsGet_jsSet_self _ _ _, List.mem_append_right _ (by simp)⟩

theorem foldl_pushLeaf_preserve {q : String} {l : LeafInstall} :
    ∀ (pushes : List (String × LeafInstall)) (m : List (String × List LeafInstall)),
      (∃ ds, jsGet m q = some ds ∧ l ∈ ds) →
      ∃ ds, jsGet (pushes.foldl pushLeaf m) q = some ds ∧ l ∈ ds := by
  intro pushes
  induction pushes with
  | nil => intro m h; exact h
  | cons pl pushes ih =>
    intro m h
    rw [List.foldl_cons]
    exact ih _ (pushLeaf_preserve pl h)

theorem foldl_pushLeaf_of_mem {pl : String × LeafInstall} :
    ∀ (pushes : List (String × LeafInstall)) (m : List (String × List LeafInstall)),
      pl ∈ pushes →
      ∃ ds, jsGet (pushes.foldl pushLeaf m) pl.1 = some ds ∧ pl.2 ∈ ds := by
  intro pushes m hmem
  obtain ⟨s, t, rfl⟩ := List.append_of_mem hmem
  rw [List.foldl_append, List.foldl_cons]
  exact foldl_pushLeaf_preserve t _ (pushLeaf_self _ pl)

theorem foldl_pushLeaf_all {Q : LeafInstall → Prop} :
    ∀ (pushes : List (String × LeafInstall)) (m : List (String × List LeafInstall)),
      (∀ pl ∈ pushes, Q pl.2) →
      (∀ q ds, jsGet m q = some ds → ∀ l ∈ ds, Q l) →
      ∀ q ds, jsGet (pushes.foldl pushLeaf m) q = some ds → ∀ l ∈ ds, Q l := by
  intro pushes
  induction pushes with
  | nil => intro m _ hm q ds hds l hl; exact hm q ds hds l hl
  | cons pl pushes ih =>
    intro m hp hm
    rw [List.foldl_cons]
    refine ih _ (fun pl' hpl' => hp pl' (List.mem_cons_of_mem _ hpl')) ?_
    intro q ds hds l hl
    unfold pushLeaf at hds
    rcases jsGet_jsSet_cases hds with ⟨hq, hdse⟩ | ⟨hne, hds'⟩
    · subst hdse
      rcases List.mem_append.mp hl with hl' | hl'
      · cases hget : jsGet m pl.1 with
        | none => rw [hget] at hl'; simp at hl'
        | some ds₀ =>
          rw [hget] at hl'
          exact hm pl.1 ds₀ hget l hl'
      · rw [List.mem_singleton.mp hl']
        exact hp pl (by simp)
    · exact hm q ds hds' l hl

theorem foldl_pushLeaf_keys_nodup :
    ∀ (pushes : List (String × LeafInstall)) (m : List (String × List LeafInstall)),
      ((m.map (·.1)).Nodup) →
      (((pushes.foldl pushLeaf m).map (·.1)).Nodup) := by
  intro pushes
  induction pushes with
  | nil => intro m h; exact h
  | cons pl pushes ih =>
    intro m h
    rw [List.foldl_cons]
    exact ih _ (nodup_keys_jsSet _ _ h)

/-! Membership characterizations of the per-entry contributions. -/

theorem mem_entryRootWarnings {st : BootstrapState} {agg : Aggregate} {name : String}
    {w : Warning} (h : w ∈ entryRootWarnings st agg name) :
    hoistCheck st name = true ∧
    ∃ cv, commonVersionOf (entryDE agg name) = some cv ∧
      (jsOrElse (jsGet st.repository.allDependencies name) cv) ≠ cv ∧
      w = Warning.hoistRoot name
        (jsOrElse (jsGet st.repository.allDependencies name) cv) cv := by
  unfold entryRootWarnings at h
  by_cases hh : hoistCheck st name = true
  · rw [if_pos hh] at h
    cases hcv : commonVersionOf (entryDE agg name) with
    | none =>
      simp only [hcv] at h
      simp at h
    | some cv =>
      simp only [hcv] at h
      by_cases hne : ((jsOrElse (jsGet st.repository.allDependencies name) cv) != cv) = true
      · rw [if_pos hne] at h
        exact ⟨hh, cv, rfl, by simpa using hne, by simpa using h⟩
      · rw [if_neg hne] at h
        simp at h
  · rw [if_neg hh] at h
    simp at h

theorem entryRootWarnings_eq_of_ne {st : BootstrapState} {agg : Aggregate} {name : String}
    (hh : hoistCheck st name = true) {cv : String}
    (hcv : commonVersionOf (entryDE agg name) = some cv)
    (hne : (jsOrElse (jsGet st.repository.allDependencies name) cv) ≠ cv) :
    entryRootWarnings st agg name =
      [Warning.hoistRoot name (jsOrElse (jsGet st.repository.allDependencies name) cv) cv] := by
  unfold entryRootWarnings
  rw [if_pos hh]
  simp only [hcv]
  rw [if_pos (by simpa using hne)]

theorem entryRootWarnings_eq_of_eq {st : BootstrapState} {agg : Aggregate} {name : String}
    {cv : String} (hcv : commonVersionOf (entryDE agg name) = some cv)
    (heq : (jsOrElse (jsGet st.repository.allDependencies name) cv) = cv) :
    entryRootWarnings st agg name = [] := by
  unfold entryRootWarnings
  by_cases hh : hoistCheck st name = true
  · rw [if_pos hh]
    simp only [hcv]
    rw [if_neg (by simpa using heq)]
  · rw [if_neg hh]

theorem mem_entryLeafPushes {st : BootstrapState} {agg : Aggregate} {name : String}
    {pl : String × LeafInstall} :
    pl ∈ entryLeafPushes st agg name ↔
      ∃ version, version ∈ (entryDE agg name).versions.map (·.1) ∧
        (some version == entryRootVersion st agg name) = false ∧
        ∃ p, p ∈ (jsGet (entryDE agg name).dependents version).getD [] ∧
          pl = (p, { name := name, version := version,
                     isSatisfied := ((findPackage st p none).map
                       (fun q => q.hasDependencyInstalledB name)).getD false }) := by
  unfold entryLeafPushes
  rw [List.mem_flatten]
  constructor
  · rintro ⟨l, hl, hpl⟩
    obtain ⟨version, hver, rfl⟩ := List.mem_map.mp hl
    by_cases hskip : (some version == entryRootVersion st agg name) = true
    · rw [if_pos hskip] at hpl
      simp at hpl
    · rw [if_neg hskip] at hpl
      unfold versionPushes at hpl
      obtain ⟨p, hp, rfl⟩ := List.mem_map.mp hpl
      exact ⟨version, hver, by simpa using hskip, p, hp, rfl⟩
  · rintro ⟨version, hver, hskip, p, hp, rfl⟩
    refine ⟨versionPushes st name version
      ((jsGet (entryDE agg name).dependents version).getD []), ?_, ?_⟩
    · exact List.mem_map.mpr ⟨version, hver, by rw [if_neg (by simp [hskip])]⟩
    · exact List.mem_map.mpr ⟨p, hp, rfl⟩

theorem mem_entryWarnings_cases {st : BootstrapState} {agg : Aggregate} {name : String}
    {w : Warning} (h : w ∈ entryWarnings st agg name) :
    w ∈ entryRootWarnings st agg name ∨
      ∃ version, version ∈ (entryDE agg name).versions.map (·.1) ∧
        (some version == entryRootVersion st agg name) = false ∧
        rootVersionTruthy (entryRootVersion st agg name) = true ∧
        ∃ p, p ∈ (jsGet (entryDE agg name).dependents version).getD [] ∧
          w = Warning.hoistPkg p name version
            ((entryRootVersion st agg name).getD "") := by
  unfold entryWarnings at h
  rcases List.mem_append.mp h with h | h
  · exact Or.inl h
  · right
    rw [List.mem_flatten] at h
    obtain ⟨l, hl, hw⟩ := h
    obtain ⟨version, hver, rfl⟩ := List.mem_map.mp hl
    by_cases hskip : (some version == entryRootVersion st agg name) = true
    · rw [if_pos hskip] at hw
      simp at hw
    · rw [if_neg hskip] at hw
      unfold versionWarnings at hw
      by_cases htr : rootVersionTruthy (entryRootVersion st agg name) = true
      · rw [if_pos htr] at hw
        obtain ⟨p, hp, rfl⟩ := List.mem_map.mp hw
        exact ⟨version, hver, by simpa using hskip, htr, p, hp, rfl⟩
      · rw [if_neg htr] at hw
        simp at hw

theorem mem_entryWarnings_depName {st : BootstrapState} {agg : Aggregate} {name : String}
    {w : Warning} (h : w ∈ entryWarnings st agg name) : w.depName = name := by
  rcases mem_entryWarnings_cases h with h' | ⟨_, _, _, _, _, _, rfl⟩
  · obtain ⟨_, _, _, _, rfl⟩ := mem_entryRootWarnings h'
    rfl
  · rfl

theorem mem_entryRootInstalls {st : BootstrapState} {agg : Aggregate} {name : String}
    {r : RootInstall} (h : r ∈ entryRootInstalls st agg name) :
    hoistCheck st name = true ∧
    ∃ cv, commonVersionOf (entryDE agg name) = some cv ∧
      r = { name := name,
            rootVersion := jsOrElse (jsGet st.repository.allDependencies name) cv,
            dependents := (((jsGet (entryDE agg name).dependents
                (jsOrElse (jsGet st.repository.allDependencies name) cv)).getD []).mapM
              (fun d => graphGet st.graphPackages d)).getD [],
            isSatisfied := st.repository.hasDependencyInstalledB name
              (jsOrElse (jsGet st.repository.allDependencies name) cv) } := by
  unfold entryRootInstalls at h
  by_cases hh : hoistCheck st name = true
  · rw [if_pos hh] at h
    cases hcv : commonVersionOf (entryDE agg name) with
    | none =>
      simp only [hcv] at h
      simp at h
    | some cv =>
      simp only [hcv] at h
      exact ⟨hh, cv, rfl, by simpa using h⟩
  · rw [if_neg hh] at h
    simp at h

theorem mem_entryRootInstalls_name {st : BootstrapState} {agg : Aggregate} {name : String}
    {r : RootInstall} (h : r ∈ entryRootInstalls st agg name) : r.name = name := by
  obtain ⟨_, cv, _, rfl⟩ := mem_entryRootInstalls h
  rfl

theorem entryRootInstalls_not_hoisted {st : BootstrapState} {agg : Aggregate}
    {name : String} (hh : hoistCheck st name ≠ true) :
    entryRootInstalls st agg name = [] := by
  unfold entryRootInstalls
  rw [if_neg hh]

theorem entryRootInstalls_hoisted {st : BootstrapState} {agg : Aggregate}
    {name : String} (hh : hoistCheck st name = true) {cv : String}
    (hcv : commonVersionOf (entryDE agg name) = some cv) :
    entryRootInstalls st agg name =
      [{ name := name,
         rootVersion := jsOrElse (jsGet st.repository.allDependencies name) cv,
         dependents := (((jsGet (entryDE agg name).dependents
             (jsOrElse (jsGet st.repository.allDependencies name) cv)).getD []).mapM
           (fun d => graphGet st.graphPackages d)).getD [],
         isSatisfied := st.repository.hasDependencyInstalledB name
           (jsOrElse (jsGet st.repository.allDependencies name) cv) }] := by
  unfold entryRootInstalls
  rw [if_pos hh]
  simp only [hcv]

/-! Facts about `mapM` over `Option`. -/

theorem mapM_some_forward {α β : Type} (f : α → Option β) :
    ∀ {l : List α} {ys : List β}, l.mapM f = some ys → ∀ x ∈ l, ∃ y, f x = some y ∧ y ∈ ys := by
  intro l
  induction l with
  | nil => intro ys h x hx; simp at hx
  | cons a l ih =>
    intro ys h x hx
    rw [List.mapM_cons] at h
    cases hfa : f a with
    | none => rw [hfa] at h; simp at h
    | some b =>
      rw [hfa] at h
      simp only [Option.bind_eq_bind, Option.some_bind] at h
      cases hrest : l.mapM f with
      | none => rw [hrest] at h; simp at h
      | some bs =>
        rw [hrest] at h
        simp only [Option.bind_eq_bind, Option.some_bind] at h
        injection h with h
        rcases List.mem_cons.mp hx with rfl | hx'
        · exact ⟨b, hfa, by rw [← h]; simp⟩
        · obtain ⟨y, hy, hmem⟩ := ih hrest x hx'
          exact ⟨y, hy, by rw [← h]; exact List.mem_cons_of_mem _ hmem⟩

theorem mapM_some_backward {α β : Type} (f : α → Option β) :
    ∀ {l : List α} {ys : List β}, l.mapM f = some ys → ∀ y ∈ ys, ∃ x ∈ l, f x = some y := by
  intro l
  induction l with
  | nil =>
    intro ys h y hy
    simp only [List.mapM_nil] at h
    injection h with h
    rw [← h] at hy
    simp at hy
  | cons a l ih =>
    intro ys h y hy
    rw [List.mapM_cons] at h
    cases hfa : f a with
    | none => rw [hfa] at h; simp at h
    | some b =>
      rw [hfa] at h
      simp only [Option.bind_eq_bind, Option.some_bind] at h
      cases hrest : l.mapM f with
      | none => rw [hrest] at h; simp at h
      | some bs =>
        rw [hrest] at h
        simp only [Option.bind_eq_bind, Option.some_bind] at h
        injection h with h
        rw [← h] at hy
        rcases List.mem_cons.mp hy with rfl | hy'
        · exact ⟨a, by simp, hfa⟩
        · obtain ⟨x, hx, hfx⟩ := ih hrest y hy'
          exact ⟨x, List.mem_cons_of_mem _ hx, hfx⟩

theorem mapM_graphGet_names (g : List Package) :
    ∀ {l : List String} {ys : List Package},
      l.mapM (fun d => graphGet g d) = some ys →
      ys.map (·.name) = l ∧ ∀ p ∈ ys, p ∈ g := by
  intro l
  induction l with
  | nil =>
    intro ys h
    simp only [List.mapM_nil] at h
    injection h with h
    rw [← h]
    exact ⟨rfl, by simp⟩
  | cons a l ih =>
    intro ys h
    rw [List.mapM_cons] at h
    cases hfa : graphGet g a with
    | none => rw [hfa] at h; simp at h
    | some b =>
      rw [hfa] at h
      simp only [Option.bind_eq_bind, Option.some_bind] at h
      cases hrest : l.mapM (fun d => graphGet g d) with
      | none => rw [hrest] at h; simp at h
      | some bs =>
        rw [hrest] at h
        simp only [Option.bind_eq_bind, Option.some_bind] at h
        injection h with h
        obtain ⟨hnames, hmem⟩ := ih hrest
        have hbname : b.name = a := by
          have := List.find?_some hfa
          simpa using this
        have hbmem : b ∈ g := List.mem_of_find?_eq_some hfa
        constructor
        · rw [← h, List.map_cons, hbname, hnames]
        · intro p hp
          rw [← h] at hp
          rcases List.mem_cons.mp hp with rfl | hp'
          · exact hbmem
          · exact hmem p hp'

/-! Analysis of the most-common-version reduce. -/

theorem foldl_pick_mem (cnt : String → Nat) :
    ∀ (ks : List String) (init : String),
      ks.foldl (fun a b => if cnt a > cnt b then a else b) init ∈ init :: ks := by
  intro ks
  induction ks with
  | nil => intro init; simp
  | cons b ks ih =>
    intro init
    rw [List.foldl_cons]
    show List.foldl _ (if cnt init > cnt b then init else b) ks ∈ init :: b :: ks
    by_cases hc : cnt init > cnt b
    · rw [if_pos hc]
      rcases List.mem_cons.mp (ih init) with h | h
    
      · rw [h]; simp
      · simp [List.mem_cons_of_mem, h]
    · rw [if_neg hc]
      rcases List.mem_cons.mp (ih b) with h | h
      · rw [h]; simp
      · simp [List.mem_cons_of_mem, h]

theorem foldl_pick_ge (cnt : String → Nat) :
    ∀ (ks : List String) (init : String) (v : String), v ∈ init :: ks →
      cnt v ≤ cnt (ks.foldl (fun a b => if cnt a > cnt b then a else b) init) := by
  intro ks
  induction ks with
  | nil =>
    intro init v hv
    rw [List.foldl_nil]
    rcases List.mem_cons.mp hv with heq | h
    · rw [heq]
    · simp at h
  | cons b ks ih =>
    intro init v hv
    rw [List.foldl_cons]
    show cnt v ≤ cnt (List.foldl _ (if cnt init > cnt b then init else b) ks)
    by_cases hc : cnt init > cnt b
    · rw [if_pos hc]
      rcases List.mem_cons.mp hv with heq | hv'
      · rw [heq]
        exact ih init init (by simp)
      · rcases List.mem_cons.mp hv' with heq | hv''
        · rw [heq]
          exact le_trans (le_of_lt hc) (ih init init (by simp))
        · exact ih init v (List.mem_cons_of_mem _ hv'')
    · rw [if_neg hc]
      rcases List.mem_cons.mp hv with heq | hv'
      · rw [heq]
        exact le_trans (Nat.le_of_not_lt hc) (ih b b (by simp))
      · rcases List.mem_cons.mp hv' with heq | hv''
        · rw [heq]
          exact ih b b (by simp)
        · exact ih b v (List.mem_cons_of_mem _ hv'')

theorem foldl_pick_last (cnt : String → Nat) :
    ∀ (ks : List String) (init : String),
      ∃ l₁ l₂,
        init :: ks =
          l₁ ++ (ks.foldl (fun a b => if cnt a > cnt b then a else b) init) :: l₂ ∧
        ∀ v ∈ l₂, cnt v <
          cnt (ks.foldl (fun a b => if cnt a > cnt b then a else b) init) := by
  intro ks
  induction ks with
  | nil => intro init; exact ⟨[], [], rfl, by simp⟩
  | cons b ks ih =>
    intro init
    rw [List.foldl_cons]
    show ∃ l₁ l₂,
      init :: b :: ks = l₁ ++ (List.foldl _ (if cnt init > cnt b then init else b) ks) :: l₂ ∧
      ∀ v ∈ l₂, cnt v < cnt (List.foldl _ (if cnt init > cnt b then init else b) ks)
    by_cases hc : cnt init > cnt b
    · rw [if_pos hc]
      obtain ⟨l₁, l₂, heq, hlt⟩ := ih init
      cases l₁ with
      | nil =>
        rw [List.nil_append] at heq
        injection heq with h1 h2
        refine ⟨[], b :: l₂, ?_, ?_⟩
        · rw [List.nil_append, ← h1, h2]
        · intro v hv
          rcases List.mem_cons.mp hv with rfl | hv'
          · rw [← h1]
            exact hc
          · exact hlt v hv'
      | cons a l₁' =>
        rw [List.cons_append] at heq
        injection heq with h1 h2
        refine ⟨init :: b :: l₁', l₂, ?_, hlt⟩
        rw [List.cons_append, List.cons_append, ← h2]
    · rw [if_neg hc]
      obtain ⟨l₁, l₂, heq, hlt⟩ := ih b
      exact ⟨init :: l₁, l₂, by rw [List.cons_append, ← heq], hlt⟩

/-- The chosen common version: it is one of the version keys, it has a
maximal requester count, and every key recorded after its final position
has a strictly smaller count (the reduce keeps the later key on ties). -/
theorem commonVersionOf_spec {e : DepEntry} {r : String}
    (h : commonVersionOf e = some r) :
    r ∈ e.versions.map (·.1) ∧
    (∀ v ∈ e.versions.map (·.1),
      (jsGet e.versions v).getD 0 ≤ (jsGet e.versions r).getD 0) ∧
    ∃ l₁ l₂, e.versions.map (·.1) = l₁ ++ r :: l₂ ∧
      ∀ v ∈ l₂, (jsGet e.versions v).getD 0 < (jsGet e.versions r).getD 0 := by
  unfold commonVersionOf at h
  cases hks : e.versions.map (·.1) with
  | nil =>
    simp only [hks] at h
    simp at h
  | cons k ks =>
    simp only [hks] at h
    injection h with h
    subst h
    refine ⟨?_, ?_, ?_⟩
    · exact foldl_pick_mem (fun s => (jsGet e.versions s).getD 0) ks k
    · intro v hv
      exact foldl_pick_ge (fun s => (jsGet e.versions s).getD 0) ks k v hv
    · exact foldl_pick_last (fun s => (jsGet e.versions s).getD 0) ks k

theorem commonVersionOf_isSome {e : DepEntry} (h : e.versions ≠ []) :
    ∃ cv, commonVersionOf e = some cv := by
  unfold commonVersionOf
  cases hks : e.versions.map (·.1) with
  | nil => exact absurd (List.map_eq_nil_iff.mp hks) h
  | cons k ks => exact ⟨_, rfl⟩

/-! Counting warnings. -/

theorem count_flatten_list {α : Type} [BEq α] (a : α) :
    ∀ (L : List (List α)), (L.flatten).count a = (L.map (fun l => l.count a)).sum := by
  intro L
  induction L with
  | nil => rfl
  | cons l L ih => simp [List.count_append, ih]

theorem sum_map_single (g : String → Nat) :
    ∀ (ks : List String) (v : String), ks.Nodup → v ∈ ks →
      (∀ u ∈ ks, u ≠ v → g u = 0) → (ks.map g).sum = g v := by
  intro ks
  induction ks with
  | nil => intro v _ hv; simp at hv
  | cons k ks ih =>
    intro v hnd hv hz
    rw [List.map_cons, List.sum_cons]
    rw [List.nodup_cons] at hnd
    rcases List.mem_cons.mp hv with rfl | hv'
    · have hzs : (ks.map g).sum = 0 := by
        apply List.sum_eq_zero
        intro x hx
        obtain ⟨u, hu, rfl⟩ := List.mem_map.mp hx
        by_cases huv : u = v
        · exact absurd (huv ▸ hu) hnd.1
        · exact hz u (List.mem_cons_of_mem _ hu) huv
      rw [hzs]
      omega
    · rw [hz k (by simp) (fun hk => hnd.1 (hk ▸ hv')),
        ih v hnd.2 hv' (fun u hu huv => hz u (List.mem_cons_of_mem _ hu) huv)]
      omega

/-! Plan-level views of the per-entry decomposition. -/

theorem plan_root_mem {st : BootstrapState} {P : InstallPlan}
    (h : getDependenciesToInstall st = some P) {r : RootInstall} (hr : r ∈ P.root) :
    ∃ nm ∈ (buildDepsToInstall st).map (·.1),
      r ∈ entryRootInstalls st (buildDepsToInstall st) nm := by
  rw [(plan_spec h).1, List.mem_flatten] at hr
  obtain ⟨l, hl, hrl⟩ := hr
  obtain ⟨nm, hnm, rfl⟩ := List.mem_map.mp hl
  exact ⟨nm, hnm, hrl⟩

theorem plan_root_of_entry {st : BootstrapState} {P : InstallPlan}
    (h : getDependenciesToInstall st = some P) {nm : String}
    (hnm : nm ∈ (buildDepsToInstall st).map (·.1)) {r : RootInstall}
    (hr : r ∈ entryRootInstalls st (buildDepsToInstall st) nm) : r ∈ P.root := by
  rw [(plan_spec h).1, List.mem_flatten]
  exact ⟨entryRootInstalls st (buildDepsToInstall st) nm,
    List.mem_map.mpr ⟨nm, hnm, rfl⟩, hr⟩

theorem plan_warning_mem {st : BootstrapState} {P : InstallPlan}
    (h : getDependenciesToInstall st = some P) {w : Warning} (hw : w ∈ P.warnings) :
    ∃ nm ∈ (buildDepsToInstall st).map (·.1),
      w ∈ entryWarnings st (buildDepsToInstall st) nm := by
  rw [(plan_spec h).2.1, List.mem_flatten] at hw
  obtain ⟨l, hl, hwl⟩ := hw
  obtain ⟨nm, hnm, rfl⟩ := List.mem_map.mp hl
  exact ⟨nm, hnm, hwl⟩

theorem plan_warning_of_entry {st : BootstrapState} {P : InstallPlan}
    (h : getDependenciesToInstall st = some P) {nm : String}
    (hnm : nm ∈ (buildDepsToInstall st).map (·.1)) {w : Warning}
    (hw : w ∈ entryWarnings st (buildDepsToInstall st) nm) : w ∈ P.warnings := by
  rw [(plan_spec h).2.1, List.mem_flatten]
  exact ⟨entryWarnings st (buildDepsToInstall st) nm,
    List.mem_map.mpr ⟨nm, hnm, rfl⟩, hw⟩

theorem plan_leaf_of_push {st : BootstrapState} {P : InstallPlan}
    (h : getDependenciesToInstall st = some P) {nm : String}
    (hnm : nm ∈ (buildDepsToInstall st).map (·.1)) {pl : String × LeafInstall}
    (hpl : pl ∈ entryLeafPushes st (buildDepsToInstall st) nm) :
    ∃ ds, jsGet P.leaves pl.1 = some ds ∧ pl.2 ∈ ds := by
  rw [(plan_spec h).2.2]
  apply foldl_pushLeaf_of_mem
  rw [List.mem_flatten]
  exact ⟨entryLeafPushes st (buildDepsToInstall st) nm,
    List.mem_map.mpr ⟨nm, hnm, rfl⟩, hpl⟩

theorem plan_leaves_all {st : BootstrapState} {P : InstallPlan}
    (h : getDependenciesToInstall st = some P) {Q : LeafInstall → Prop}
    (hQ : ∀ nm ∈ (buildDepsToInstall st).map (·.1),
      ∀ pl ∈ entryLeafPushes st (buildDepsToInstall st) nm, Q pl.2) :
    ∀ q ds, jsGet P.leaves q = some ds → ∀ l ∈ ds, Q l := by
  rw [(plan_spec h).2.2]
  apply foldl_pushLeaf_all
  · intro pl hpl
    rw [List.mem_flatten] at hpl
    obtain ⟨l, hl, hpll⟩ := hpl
    obtain ⟨nm, hnm, rfl⟩ := List.mem_map.mp hl
    exact hQ nm hnm pl hpll
  · intro q ds hds
    rw [jsGet_nil] at hds
    exact absurd hds (by simp)

theorem plan_leaves_keys_nodup {st : BootstrapState} {P : InstallPlan}
    (h : getDependenciesToInstall st = some P) : ((P.leaves.map (·.1)).Nodup) := by
  rw [(plan_spec h).2.2]
  exact foldl_pushLeaf_keys_nodup _ _ (by simp)

theorem plan_warning_count {st : BootstrapState} {P : InstallPlan}
    (h : getDependenciesToInstall st = some P) (w : Warning) {nm : String}
    (hnm : nm ∈ (buildDepsToInstall st).map (·.1))
    (hnd : (((buildDepsToInstall st).map (·.1)).Nodup))
    (hother : ∀ m ∈ (buildDepsToInstall st).map (·.1), m ≠ nm →
      w ∉ entryWarnings st (buildDepsToInstall st) m) :
    P.warnings.count w = (entryWarnings st (buildDepsToInstall st) nm).count w := by
  rw [(plan_spec h).2.1, count_flatten_list, List.map_map]
  exact sum_map_single _ _ nm hnd hnm
    (fun u hu hune => List.count_eq_zero.mpr (hother u hu hune))

/-! Success of the planner when all requesters resolve. -/

theorem mapM_isSome_of_forall {α β : Type} (f : α → Option β) :
    ∀ (l : List α), (∀ x ∈ l, (f x).isSome) → ∃ ys, l.mapM f = some ys := by
  intro l
  induction l with
  | nil => intro _; exact ⟨[], rfl⟩
  | cons a l ih =>
    intro h
    obtain ⟨b, hb⟩ := Option.isSome_iff_exists.mp (h a (by simp))
    obtain ⟨bs, hbs⟩ := ih (fun x hx => h x (List.mem_cons_of_mem _ hx))
    exact ⟨b :: bs, by rw [List.mapM_cons, hb, hbs]; rfl⟩

theorem foldlM_isSome_of_steps {α β : Type} (f : β → α → Option β) :
    ∀ (l : List α), (∀ acc x, x ∈ l → ∃ acc', f acc x = some acc') →
      ∀ acc, ∃ c, l.foldlM f acc = some c := by
  intro l
  induction l with
  | nil => intro _ acc; exact ⟨acc, rfl⟩
  | cons a l ih =>
    intro h acc
    obtain ⟨mid, hmid⟩ := h acc a (by simp)
    obtain ⟨c, hc⟩ := ih (fun acc' x hx => h acc' x (List.mem_cons_of_mem _ hx)) mid
    exact ⟨c, by rw [List.foldlM_cons, hmid]; simpa using hc⟩

theorem findPackage_none_isSome {st : BootstrapState} {p : String}
    (h : ∃ q ∈ st.packages, q.name = p) : (findPackage st p none).isSome := by
  unfold findPackage
  rw [List.find?_isSome]
  obtain ⟨q, hq, hname⟩ := h
  exact ⟨q, hq, by simp [hname]⟩

theorem graphGet_isSome {g : List Package} {d : String}
    (h : ∃ q ∈ g, q.name = d) : (graphGet g d).isSome := by
  unfold graphGet
  rw [List.find?_isSome]
  obtain ⟨q, hq, hname⟩ := h
  exact ⟨q, hq, by simp [hname]⟩

theorem leafStep_isSome (st : BootstrapState) (name : String) (rv : Option String)
    (version : String) (acc : InstallPlan) {p : String}
    (h : (findPackage st p none).isSome) :
    ∃ acc', leafStep st name rv version acc p = some acc' := by
  unfold leafStep
  obtain ⟨q, hq⟩ := Option.isSome_iff_exists.mp h
  rw [hq]
  exact ⟨_, rfl⟩

theorem getDependenciesToInstall_isSome (st : BootstrapState)
    (hgraph : ∀ p ∈ st.filteredPackages, ∃ g ∈ st.graphPackages, g.name = p.name)
    (hpkgs : ∀ p ∈ st.filteredPackages, ∃ q ∈ st.packages, q.name = p.name)
    (hnames : (st.filteredPackages.map (·.name)).Nodup)
    (hkeys : ∀ q ∈ st.filteredPackages, (q.allDependencies.map (·.1)).Nodup) :
    ∃ P, getDependenciesToInstall st = some P := by
  have hwf := buildDepsToInstall_AggWF st
  have hdeps := buildDeps_AggDeps st hnames hkeys
  have hsub : ∀ n e, jsGet (buildDepsToInstall st) n = some e →
      ∀ v ds, jsGet e.dependents v = some ds → ∀ y ∈ ds,
        ∃ q ∈ st.packages, q.name = y := by
    intro n e he v ds hds y hy
    have hyname := (hdeps n e he v ds hds).2 y hy
    obtain ⟨p, hp, hpn⟩ := List.mem_map.mp hyname
    obtain ⟨q, hq, hqn⟩ := hpkgs p hp
    exact ⟨q, hq, by rw [hqn, hpn]⟩
  have hsubg : ∀ n e, jsGet (buildDepsToInstall st) n = some e →
      ∀ v ds, jsGet e.dependents v = some ds → ∀ y ∈ ds,
        ∃ g ∈ st.graphPackages, g.name = y := by
    intro n e he v ds hds y hy
    have hyname := (hdeps n e he v ds hds).2 y hy
    obtain ⟨p, hp, hpn⟩ := List.mem_map.mp hyname
    obtain ⟨g, hg, hgn⟩ := hgraph p hp
    exact ⟨g, hg, by rw [hgn, hpn]⟩
  unfold getDependenciesToInstall
  apply foldlM_isSome_of_steps
  intro acc nm hnm
  obtain ⟨e, he⟩ := Option.isSome_iff_exists.mp
    (jsGet_isSome_of_mem_keys hnm)
  have heDE : entryDE (buildDepsToInstall st) nm = e := by
    unfold entryDE
    rw [he]
    rfl
  obtain ⟨hvnd, hvne, hvpos⟩ := hwf.2 nm e he
  -- the hoisted prefix succeeds
  have hhoist : ∃ x, hoistEntry st (buildDepsToInstall st) acc nm = some x := by
    unfold hoistEntry
    by_cases hh : hoistCheck st nm = true
    · rw [if_pos hh]
      obtain ⟨cv, hcv⟩ := commonVersionOf_isSome (e := entryDE (buildDepsToInstall st) nm)
        (by rw [heDE]; exact hvne)
      simp only [hcv]
      have hmapS : ∃ deps, ((jsGet (entryDE (buildDepsToInstall st) nm).dependents
          (jsOrElse (jsGet st.repository.allDependencies nm) cv)).getD []).mapM
          (fun d => graphGet st.graphPackages d) = some deps := by
        apply mapM_isSome_of_forall
        intro y hy
        cases hgd : jsGet (entryDE (buildDepsToInstall st) nm).dependents
            (jsOrElse (jsGet st.repository.allDependencies nm) cv) with
        | none =>
          rw [hgd] at hy
          simp at hy
        | some ds =>
          rw [hgd] at hy
          simp only [Option.getD_some] at hy
          apply graphGet_isSome
          rw [heDE] at hgd
          exact hsubg nm e he _ ds hgd y hy
      obtain ⟨deps, hdeps'⟩ := hmapS
      simp only [hdeps']
      exact ⟨_, rfl⟩
    · rw [if_neg hh]
      exact ⟨_, rfl⟩
  obtain ⟨x, hx⟩ := hhoist
  obtain ⟨rv, acc₂⟩ := x
  unfold processEntry
  rw [hx]
  simp only [Option.bind_eq_bind, Option.some_bind]
  apply foldlM_isSome_of_steps
  intro acc' version hversion
  unfold versionStep
  by_cases hskip : (some version == rv) = true
  · rw [if_pos hskip]
    exact ⟨acc', rfl⟩
  · rw [if_neg hskip]
    apply foldlM_isSome_of_steps
    intro acc'' y hy
    apply leafStep_isSome
    apply findPackage_none_isSome
    cases hgd : jsGet (entryDE (buildDepsToInstall st) nm).dependents version with
    | none =>
      rw [hgd] at hy
      simp at hy
    | some ds =>
      rw [hgd] at hy
      simp only [Option.getD_some] at hy
      rw [heDE] at hgd
      exact hsub nm e he version ds hgd y hy

/-! Existence of root installs and leaf installs from aggregate membership. -/

theorem entryRootVersion_hoisted {st : BootstrapState} {agg : Aggregate} {name : String}
    (hh : hoistCheck st name = true) {cv : String}
    (hcv : commonVersionOf (entryDE agg name) = some cv) :
    entryRootVersion st agg name =
      some (jsOrElse (jsGet st.repository.allDependencies name) cv) := by
  unfold entryRootVersion
  rw [if_pos hh]
  simp only [hcv]

theorem entryRootVersion_not_hoisted {st : BootstrapState} {agg : Aggregate}
    {name : String} (hh : ¬ hoistCheck st name = true) :
    entryRootVersion st agg name = none := by
  unfold entryRootVersion
  rw [if_neg hh]

theorem entryDE_eq {agg : Aggregate} {name : String} {e : DepEntry}
    (he : jsGet agg name = some e) : entryDE agg name = e := by
  unfold entryDE
  rw [he]
  rfl

theorem plan_leaf_exists {st : BootstrapState} {P : InstallPlan}
    (h : getDependenciesToInstall st = some P) {name : String} {e : DepEntry}
    (he : jsGet (buildDepsToInstall st) name = some e) {v : String}
    {ds : List String} (hds : jsGet e.dependents v = some ds) {p : String}
    (hp : p ∈ ds) (hc : (jsGet e.versions v).getD 0 ≠ 0)
    (hskip : (some v == entryRootVersion st (buildDepsToInstall st) name) = false) :
    ∃ dsl, jsGet P.leaves p = some dsl ∧ ∃ l ∈ dsl, l.name = name ∧ l.version = v := by
  have heDE := entryDE_eq he
  have hvk : v ∈ (entryDE (buildDepsToInstall st) name).versions.map (·.1) := by
    rw [heDE]
    cases hv : jsGet e.versions v with
    | none => rw [hv] at hc; simp at hc
    | some c => exact jsGet_mem_keys hv
  have hpush : ∃ pl ∈ entryLeafPushes st (buildDepsToInstall st) name,
      pl.1 = p ∧ pl.2.name = name ∧ pl.2.version = v := by
    refine ⟨_, mem_entryLeafPushes.mpr ⟨v, hvk, hskip, p, ?_, rfl⟩, rfl, rfl, rfl⟩
    rw [heDE, hds]
    exact hp
  obtain ⟨pl, hpl, hp1, hn, hv2⟩ := hpush
  obtain ⟨dsl, hdsl, hmem⟩ := plan_leaf_of_push h (jsGet_mem_keys he) hpl
  rw [hp1] at hdsl
  exact ⟨dsl, hdsl, pl.2, hmem, hn, hv2⟩

theorem plan_root_exists {st : BootstrapState} {P : InstallPlan}
    (h : getDependenciesToInstall st = some P) {name : String} {e : DepEntry}
    (he : jsGet (buildDepsToInstall st) name = some e)
    (hh : hoistCheck st name = true) :
    ∃ cv, commonVersionOf e = some cv ∧
      ∃ r ∈ P.root, r.name = name ∧
        r.rootVersion = jsOrElse (jsGet st.repository.allDependencies name) cv := by
  have heDE := entryDE_eq he
  have hwf := (buildDepsToInstall_AggWF st).2 name e he
  obtain ⟨cv, hcv⟩ := commonVersionOf_isSome hwf.2.1
  have hcv' : commonVersionOf (entryDE (buildDepsToInstall st) name) = some cv := by
    rw [heDE]
    exact hcv
  refine ⟨cv, hcv, ?_⟩
  have hrec := entryRootInstalls_hoisted hh hcv'
  have hone : ∃ r ∈ entryRootInstalls st (buildDepsToInstall st) name,
      r.name = name ∧
        r.rootVersion = jsOrElse (jsGet st.repository.allDependencies name) cv := by
    rw [hrec]
    exact ⟨_, List.mem_singleton_self _, rfl, rfl⟩
  obtain ⟨r, hr, h1, h2⟩ := hone
  exact ⟨r, plan_root_of_entry h (jsGet_mem_keys he) hr, h1, h2⟩

theorem count_map_inj {l : List String} {f : String → Warning}
    (hinj : ∀ a b, f a = f b → a = b) (a : String) :
    (l.map f).count (f a) = l.count a := by
  induction l with
  | nil => rfl
  | cons b l ih =>
    rw [List.map_cons]
    by_cases hab : b = a
    · subst hab
      rw [List.count_cons_self, List.count_cons_self, ih]
    · have h1 : f a ≠ f b := fun hc => hab (hinj a b hc).symm
      have h2 : a ≠ b := fun hc => hab hc.symm
      rw [List.count_cons_of_ne h1, List.count_cons_of_ne h2, ih]

/-! ### Lifecycle batching and script traces (for claim C9).

`topologicallyBatchPackages` and `runParallelBatches` live in
`PackageUtilities`, outside this repository's `src/`; the definitions below
marked "Modelled from the spec" embed the behaviour the spec ascribes to them.
-/

/-- Modelled from the spec: an observable lifecycle event — the start or the
finish of one package's script run in a phase. -/
inductive ScriptEvent where
  | start (pkgName : String)
  | finish (pkgName : String)
  deriving DecidableEq, Repr

/-- The package a script event belongs to. -/
def ScriptEvent.pkgName : ScriptEvent → String
  | .start n => n
  | .finish n => n

/-- Source lines 64-66: `this.batchedPackages = this.toposort ?
PackageUtilities.topologicallyBatchPackages(this.filteredPackages) :
[this.filteredPackages]`. The batches computed by the external topological
sort are passed in as `topoBatches`. -/
def batchedPackages (st : BootstrapState) (topoBatches : List (List Package)) :
    List (List Package) :=
  if st.options.toposort then topoBatches else [st.filteredPackages]

/-- Modelled from the spec: package `a` depends on `b` when `b`'s name occurs
among `a`'s declared dependencies. -/
def DependsOn (a b : Package) : Prop :=
  b.name ∈ a.allDependencies.map (·.1)

instance (a b : Package) : Decidable (DependsOn a b) := by
  unfold DependsOn
  infer_instance

/-- Modelled from the spec: `topologicallyBatchPackages` covers every package
(by name) and places each package's local dependencies in strictly earlier
batches.  Membership is tracked by package name, which keeps the predicate
decidable over packages carrying function-valued probes. -/
def TopoBatching (pkgs : List Package) (bs : List (List Package)) : Prop :=
  (∀ p ∈ pkgs, ∃ q ∈ bs.flatten, q.name = p.name) ∧
  (∀ i ∈ List.range bs.length, ∀ a ∈ pkgs,
    (∃ q ∈ bs.getD i [], q.name = a.name) → ∀ b ∈ pkgs,
      DependsOn a b → ∃ q ∈ (bs.take i).flatten, q.name = b.name)

instance (pkgs : List Package) (bs : List (List Package)) :
    Decidable (TopoBatching pkgs bs) := by
  unfold TopoBatching
  infer_instance

/-- Modelled from the spec: one batch's segment of the trace contains only
events of that batch's packages, and both the start and the finish of each. -/
def SegOf (batch : List Package) (seg : List ScriptEvent) : Prop :=
  (∀ e ∈ seg, e.pkgName ∈ batch.map (·.name)) ∧
  (∀ p ∈ batch, ScriptEvent.start p.name ∈ seg ∧ ScriptEvent.finish p.name ∈ seg)

instance (batch : List Package) (seg : List ScriptEvent) : Decidable (SegOf batch seg) := by
  unfold SegOf
  infer_instance

/-- Modelled from the spec: `runParallelBatches` waits for each batch to
complete before starting the next, so a phase's trace is the concatenation of
one segment per batch, in batch order. -/
def PhaseRun (bs : List (List Package)) (tr : List ScriptEvent) : Prop :=
  ∃ segs : List (List ScriptEvent), ∃ hlen : segs.length = bs.length,
    tr = segs.flatten ∧
    ∀ i, ∀ h : i < bs.length,
      SegOf (bs.get ⟨i, h⟩) (segs.get ⟨i, by rw [hlen]; exact h⟩)

/-- Event `e` precedes event `f` in trace `tr`: the trace splits with an
occurrence of `e` strictly before an occurrence of `f`. -/
def Precedes (e f : ScriptEvent) (tr : List ScriptEvent) : Prop :=
  ∃ k ∈ List.range (tr.length + 1), e ∈ tr.take k ∧ f ∈ tr.drop k

instance (e f : ScriptEvent) (tr : List ScriptEvent) : Decidable (Precedes e f tr) := by
  unfold Precedes
  infer_instance

theorem getD_eq_get {α : Type} (l : List α) (d : α) :
    ∀ {i : Nat}, (h : i < l.length) → l.getD i d = l.get ⟨i, h⟩ := by
  induction l with
  | nil => intro i h; simp at h
  | cons a tl ih =>
    intro i h
    cases i with
    | zero => rfl
    | succ m => exact ih (Nat.lt_of_succ_lt_succ h)

theorem get_mem_take {α : Type} : ∀ (l : List α) (j : Nat) (h : j < l.length),
    l.get ⟨j, h⟩ ∈ l.take (j + 1) := by
  intro l
  induction l with
  | nil => intro j h; simp at h
  | cons a tl ih =>
    intro j h
    cases j with
    | zero => exact List.mem_cons_self a _
    | succ m => exact List.mem_cons_of_mem a (ih m (Nat.lt_of_succ_lt_succ h))

theorem get_mem_drop {α : Type} : ∀ (m : Nat) (l : List α) (k : Nat)
    (hmk : m ≤ k) (h : k < l.length), l.get ⟨k, h⟩ ∈ l.drop m := by
  intro m
  induction m with
  | zero => intro l k _ h; exact List.get_mem l k h
  | succ m ih =>
    intro l k hmk h
    cases l with
    | nil => simp at h
    | cons a tl =>
      cases k with
      | zero => omega
      | succ k2 =>
        exact ih tl k2 (Nat.le_of_succ_le_succ hmk) (Nat.lt_of_succ_lt_succ h)

theorem mem_take_get {α : Type} {x : α} : ∀ (l : List α) (i : Nat),
    x ∈ l.take i → ∃ j, ∃ h : j < l.length, j < i ∧ l.get ⟨j, h⟩ = x := by
  intro l
  induction l with
  | nil => intro i hx; simp at hx
  | cons a tl ih =>
    intro i hx
    cases i with
    | zero => simp at hx
    | succ m =>
      rw [List.take_succ_cons] at hx
      rcases List.mem_cons.mp hx with h1 | h2
      · exact ⟨0, Nat.succ_pos _, Nat.succ_pos _, h1.symm⟩
      · obtain ⟨j, hjl, hji, hget⟩ := ih m h2
        exact ⟨j + 1, Nat.succ_lt_succ hjl, Nat.succ_lt_succ hji, hget⟩

theorem flatten_split_mem {segs : List (List ScriptEvent)} {j k : Nat}
    (hjk : j < k) (hk : k < segs.length) {e f : ScriptEvent}
    (he : e ∈ segs.get ⟨j, Nat.lt_trans hjk hk⟩) (hf : f ∈ segs.get ⟨k, hk⟩) :
    Precedes e f segs.flatten := by
  have hsplit : segs.flatten =
      (segs.take (j + 1)).flatten ++ (segs.drop (j + 1)).flatten := by
    rw [← List.flatten_append, List.take_append_drop]
  have he' : e ∈ (segs.take (j + 1)).flatten :=
    List.mem_flatten.mpr ⟨segs.get ⟨j, Nat.lt_trans hjk hk⟩,
      get_mem_take segs j (Nat.lt_trans hjk hk), he⟩
  have hf' : f ∈ (segs.drop (j + 1)).flatten :=
    List.mem_flatten.mpr ⟨segs.get ⟨k, hk⟩, get_mem_drop (j + 1) segs k hjk hk, hf⟩
  have hlen2 : segs.flatten.length =
      (segs.take (j + 1)).flatten.length + (segs.drop (j + 1)).flatten.length := by
    rw [hsplit, List.length_append]
  refine ⟨(segs.take (j + 1)).flatten.length, List.mem_range.mpr (by omega), ?_, ?_⟩
  · rw [hsplit, List.take_left]
    exact he'
  · rw [hsplit, List.drop_left]
    exact hf'

/-! ### Concrete workspaces exercising the planner. -/

/-- A repo-local package at the standard location, with nothing materially
present in its `node_modules` and nothing installed. -/
def mkPkg (name version : String) (deps : List (String × String)) : Package :=
  { name := name, version := version,
    location := "/repo/packages/" ++ name,
    nodeModulesLocation := "/repo/packages/" ++ name ++ "/node_modules",
    allDependencies := deps,
    hasMatchingDependencyB := fun _ => false,
    hasDependencyInstalledB := fun _ => false }

/-- A repository rooted at `/repo` with the given manifest. -/
def repo0 (deps : List (String × String)) : Repository :=
  { rootPath := "/repo", nodeModulesLocation := "/repo/node_modules",
    allDependencies := deps, hasDependencyInstalledB := fun _ _ => false }

def paLP : Package := mkPkg "a" "1.0.0" [("left-pad", "^1.0.0")]

def pbLP : Package := mkPkg "b" "1.0.0" [("left-pad", "^1.1.0")]

/-- Two packages requesting `left-pad` under tying ranges, hoisting on. -/
def stLP : BootstrapState :=
  { satisfies := fun _ _ => false,
    packages := [paLP, pbLP], filteredPackages := [paLP, pbLP],
    graphPackages := [paLP, pbLP], repository := repo0 [],
    options := { hoistEnabled := true, hoistable := fun _ => true, toposort := true } }

def planLP : InstallPlan := (getDependenciesToInstall stLP).getD default

def entLP : DepEntry := (jsGet (buildDepsToInstall stLP) "left-pad").getD default

def pbLoc : Package := mkPkg "b" "1.2.3" []

def paLoc : Package := mkPkg "a" "1.0.0" [("b", "^1.0.0")]

/-- `a` requests `b@^1.0.0`; the repo-local `b@1.2.3` satisfies the range
but is not materially present in `a`. -/
def stLoc : BootstrapState :=
  { satisfies := fun v r => v == "1.2.3" && (r == "^1.0.0" || r == "1.2.3"),
    packages := [paLoc, pbLoc], filteredPackages := [paLoc],
    graphPackages := [paLoc, pbLoc], repository := repo0 [],
    options := { hoistEnabled := false, hoistable := fun _ => false, toposort := true } }

def pbMis : Package := mkPkg "b" "2.0.0" []

/-- `a` requests `b@^1.0.0`; the repo-local `b` is at `2.0.0`, a version
mismatch, so the dependency is external. -/
def stMis : BootstrapState :=
  { satisfies := fun _ _ => false,
    packages := [paLoc, pbMis], filteredPackages := [paLoc],
    graphPackages := [paLoc, pbMis], repository := repo0 [],
    options := { hoistEnabled := false, hoistable := fun _ => false, toposort := true } }

def planMis : InstallPlan := (getDependenciesToInstall stMis).getD default

/-- A filtered package whose name is absent from the package graph. -/
def stNoGraph : BootstrapState :=
  { satisfies := fun _ _ => false,
    packages := [paLP], filteredPackages := [paLP], graphPackages := [],
    repository := repo0 [],
    options := { hoistEnabled := true, hoistable := fun _ => true, toposort := true } }

/-- A dependency that only the root manifest mentions, hoisting off. -/
def stRootOnly : BootstrapState :=
  { satisfies := fun _ _ => false,
    packages := [paLP], filteredPackages := [paLP], graphPackages := [paLP],
    repository := repo0 [("rootonly", "^2.0.0")],
    options := { hoistEnabled := false, hoistable := fun _ => false, toposort := true } }

def planRootOnly : InstallPlan := (getDependenciesToInstall stRootOnly).getD default

def qc1 : Package := mkPkg "c1" "1.0.0" [("react", "15.x")]

def qc2 : Package := mkPkg "c2" "1.0.0" [("react", "15.x")]

def qc3 : Package := mkPkg "c3" "1.0.0" [("react", "15.x")]

def qc4 : Package := mkPkg "c4" "1.0.0" [("react", "^0.14.0")]

/-- The spec's react workspace: three packages on `15.x`, one on `^0.14.0`,
the root manifest pinning `15.x`, hoisting on. -/
def stReact : BootstrapState :=
  { satisfies := fun _ _ => false,
    packages := [qc1, qc2, qc3, qc4], filteredPackages := [qc1, qc2, qc3, qc4],
    graphPackages := [qc1, qc2, qc3, qc4], repository := repo0 [("react", "15.x")],
    options := { hoistEnabled := true, hoistable := fun _ => true, toposort := true } }

def planReact : InstallPlan := (getDependenciesToInstall stReact).getD default

def entReact : DepEntry := (jsGet (buildDepsToInstall stReact) "react").getD default

def p9a : Package := mkPkg "a" "1.0.0" [("b", "^1.0.0")]

def p9b : Package := mkPkg "b" "1.0.0" []

/-- Two packages with a local dependency, lifecycle batching topological. -/
def st9topo : BootstrapState :=
  { satisfies := fun _ _ => false,
    packages := [p9a, p9b], filteredPackages := [p9a, p9b],
    graphPackages := [p9a, p9b], repository := repo0 [],
    options := { hoistEnabled := false, hoistable := fun _ => false, toposort := true } }

/-- The same workspace with `--no-sort`: a single flat batch. -/
def st9flat : BootstrapState :=
  { satisfies := fun _ _ => false,
    packages := [p9a, p9b], filteredPackages := [p9a, p9b],
    graphPackages := [p9a, p9b], repository := repo0 [],
    options := { hoistEnabled := false, hoistable := fun _ => false, toposort := false } }

def batches9 : List (List Package) := [[p9b], [p9a]]

def trGood : List ScriptEvent :=
  [ScriptEvent.start "b", ScriptEvent.finish "b",
   ScriptEvent.start "a", ScriptEvent.finish "a"]

def trBad : List ScriptEvent :=
  [ScriptEvent.start "a", ScriptEvent.finish "a",
   ScriptEvent.start "b", ScriptEvent.finish "b"]

/-! ### The claims. -/

/-- C1: Plan coverage.  Every external dependency `(name, range)` a filtered
package declares that survives the local-sibling skip filter appears in the
plan `getDependenciesToInstall` produces: either some root install carries
that name, or the requester's own `leaves` entry contains a leaf install of
that name. -/
theorem c1_plan_coverage (st : BootstrapState) (P : InstallPlan)
    (hP : getDependenciesToInstall st = some P)
    (pkg : Package) (hpkg : pkg ∈ st.filteredPackages)
    (name range : String)
    (hdep : jsGet pkg.allDependencies name = some range)
    (hkeep : keepDep st pkg (externalizeDep st pkg name) = true) :
    (∃ r ∈ P.root, r.name = name) ∨
    (∃ ds, jsGet P.leaves pkg.name = some ds ∧ ∃ l ∈ ds, l.name = name) := by
  obtain ⟨e, ds, he, hds, hx, hc⟩ := memAgg_of_declared st hpkg hdep hkeep
  by_cases hh : hoistCheck st name = true
  · left
    obtain ⟨cv, hcv, r, hr, hrn, _⟩ := plan_root_exists hP he hh
    exact ⟨r, hr, hrn⟩
  · right
    have hrv : entryRootVersion st (buildDepsToInstall st) name = none :=
      entryRootVersion_not_hoisted hh
    have hskip : (some (externalizeDep st pkg name).2 ==
        entryRootVersion st (buildDepsToInstall st) name) = false := by
      rw [hrv]
      rfl
    obtain ⟨dsl, hdsl, l, hl, hln, _⟩ := plan_leaf_exists hP he hds hx hc hskip
    exact ⟨dsl, hdsl, l, hl, hln⟩

theorem c1_plan_coverage_witness :
    getDependenciesToInstall stReact = some planReact ∧
    ((∃ r ∈ planReact.root, r.name = "react") ∨
     (∃ ds, jsGet planReact.leaves qc1.name = some ds ∧
       ∃ l ∈ ds, l.name = "react")) :=
  ⟨rfl, c1_plan_coverage stReact planReact rfl qc1 (List.mem_cons_self _ _)
    "react" "15.x" rfl rfl⟩

/-- C2 (corrected): Common-version choice.  The reduce
`Object.keys(versions).reduce((a, b) => versions[a] > versions[b] ? a : b)`
picks a key of maximal requester count, and on ties it keeps the key that
occurs LATER in insertion order — not the lexicographically smallest range:
every key recorded after the chosen one has a strictly smaller count. -/
theorem c2_common_version (e : DepEntry) (r : String)
    (h : commonVersionOf e = some r) :
    r ∈ e.versions.map (·.1) ∧
    (∀ v ∈ e.versions.map (·.1),
      (jsGet e.versions v).getD 0 ≤ (jsGet e.versions r).getD 0) ∧
    ∃ l₁ l₂, e.versions.map (·.1) = l₁ ++ r :: l₂ ∧
      ∀ v ∈ l₂, (jsGet e.versions v).getD 0 < (jsGet e.versions r).getD 0 :=
  commonVersionOf_spec h

theorem c2_common_version_witness :
    commonVersionOf entLP = some "^1.1.0" ∧
    ("^1.1.0" ∈ entLP.versions.map (·.1) ∧
     (∀ v ∈ entLP.versions.map (·.1),
       (jsGet entLP.versions v).getD 0 ≤ (jsGet entLP.versions "^1.1.0").getD 0) ∧
     ∃ l₁ l₂, entLP.versions.map (·.1) = l₁ ++ "^1.1.0" :: l₂ ∧
       ∀ v ∈ l₂,
         (jsGet entLP.versions v).getD 0 < (jsGet entLP.versions "^1.1.0").getD 0) :=
  ⟨rfl, c2_common_version entLP "^1.1.0" rfl⟩

/-- C2 counterexample: in the two-package `left-pad` workspace both ranges tie
at count 1, yet the planner's root install carries `^1.1.0` — the later key —
not the claimed lexicographically smallest `^1.0.0`. -/
theorem c2_tie_counterexample :
    jsGet (buildDepsToInstall stLP) "left-pad" =
      some { versions := [("^1.0.0", 1), ("^1.1.0", 1)],
             dependents := [("^1.0.0", ["a"]), ("^1.1.0", ["b"])] } ∧
    getDependenciesToInstall stLP = some planLP ∧
    planLP.root.map (fun r => (r.name, r.rootVersion)) = [("left-pad", "^1.1.0")] ∧
    "^1.1.0" ≠ "^1.0.0" :=
  ⟨rfl, rfl, rfl, by decide⟩

def actsReact : List InstallAction := (installActions stReact).getD default

/-- C4: Satisfaction short-circuit.  With a non-empty root installs list the
action list starts with a root install in the repository root path; its spec
list is the union of all root dependencies when some root install is
unsatisfied, and empty when every root install is satisfied. -/
theorem c4_satisfaction_short_circuit (st : BootstrapState) (P : InstallPlan)
    (acts : List InstallAction)
    (hP : getDependenciesToInstall st = some P)
    (hA : installActions st = some acts)
    (hr : P.root ≠ []) :
    ∃ specs rest,
      acts = InstallAction.rootInstall st.repository.rootPath specs :: rest ∧
      (P.root.any (fun r => !r.isSatisfied) = true →
        specs = P.root.map (·.dependency)) ∧
      (P.root.all (fun r => r.isSatisfied) = true → specs = []) := by
  unfold installActions at hA
  simp only [hP, Option.bind_eq_bind, Option.some_bind, Option.pure_def] at hA
  rw [Option.bind_eq_some] at hA
  obtain ⟨lp, hlp, hacts⟩ := hA
  injection hacts with hacts
  have hcond : (P.root.length != 0) = true := by
    rw [bne_iff_ne]
    intro h0
    exact hr (List.length_eq_zero.mp h0)
  rw [if_pos hcond] at hacts
  by_cases hany : P.root.any (fun r => !r.isSatisfied) = true
  · rw [if_pos hany] at hacts
    simp only [List.cons_append, List.nil_append] at hacts
    refine ⟨P.root.map (·.dependency), _, hacts.symm, fun _ => rfl, ?_⟩
    intro hall
    obtain ⟨r, hrmem, hneg⟩ := List.any_eq_true.mp hany
    have hsat := List.all_eq_true.mp hall r hrmem
    rw [hsat] at hneg
    simp at hneg
  · rw [if_neg hany] at hacts
    simp only [List.cons_append, List.nil_append] at hacts
    exact ⟨[], _, hacts.symm, fun hc => absurd hc hany, fun _ => rfl⟩

theorem c4_satisfaction_short_circuit_witness :
    getDependenciesToInstall stReact = some planReact ∧
    installActions stReact = some actsReact ∧
    planReact.root ≠ [] ∧
    ∃ specs rest,
      actsReact = InstallAction.rootInstall stReact.repository.rootPath specs :: rest ∧
      (planReact.root.any (fun r => !r.isSatisfied) = true →
        specs = planReact.root.map (·.dependency)) ∧
      (planReact.root.all (fun r => r.isSatisfied) = true → specs = []) :=
  ⟨rfl, rfl,
   fun h => absurd (congrArg List.length h) (by decide),
   c4_satisfaction_short_circuit stReact planReact actsReact rfl rfl
     (fun h => absurd (congrArg List.length h) (by decide))⟩

/-- C7: Leaf install actions.  A requester gets a leaf install action exactly
when one of its leaf installs is unsatisfied; the action runs in the
requester's location, passes the FULL list of that requester's leaf specs,
and carries the global-style flag iff hoisting is enabled. -/
theorem c7_leaf_actions (st : BootstrapState) (P : InstallPlan)
    (acts : List InstallAction)
    (hP : getDependenciesToInstall st = some P)
    (hA : installActions st = some acts) :
    (∀ q ds, jsGet P.leaves q = some ds →
      ds.any (fun d => !d.isSatisfied) = true →
      ∃ node, graphGet st.graphPackages q = some node ∧
        InstallAction.leafInstall node.location (ds.map (·.dependency))
          st.options.hoistEnabled ∈ acts) ∧
    (∀ dir specs gs, InstallAction.leafInstall dir specs gs ∈ acts →
      gs = st.options.hoistEnabled ∧
      ∃ q ds node, jsGet P.leaves q = some ds ∧
        graphGet st.graphPackages q = some node ∧ dir = node.location ∧
        specs = ds.map (·.dependency) ∧
        ds.any (fun d => !d.isSatisfied) = true) := by
  unfold installActions at hA
  simp only [hP, Option.bind_eq_bind, Option.some_bind, Option.pure_def] at hA
  rw [Option.bind_eq_some] at hA
  obtain ⟨lp, hlp, hacts⟩ := hA
  injection hacts with hacts
  constructor
  · intro q ds hds hunsat
    have hqk : q ∈ P.leaves.map (·.1) := jsGet_mem_keys hds
    obtain ⟨y, hy, hmem⟩ := mapM_some_forward _ hlp q hqk
    rw [Option.bind_eq_some] at hy
    obtain ⟨node, hnode, hyeq⟩ := hy
    injection hyeq with hyeq
    refine ⟨node, hnode, ?_⟩
    rw [← hacts]
    apply List.mem_append_right
    apply List.mem_filterMap.mpr
    refine ⟨y, hmem, ?_⟩
    rw [← hyeq]
    simp only [hds, Option.getD_some]
    rw [if_pos hunsat]
  · intro dir specs gs hmem
    rw [← hacts] at hmem
    rcases List.mem_append.mp hmem with hro | hleaf
    · by_cases hcond : (P.root.length != 0) = true
      · rw [if_pos hcond] at hro
        simp at hro
      · rw [if_neg hcond] at hro
        simp at hro
    · obtain ⟨y, hy, hif⟩ := List.mem_filterMap.mp hleaf
      by_cases hact : y.2.any (fun d => !d.isSatisfied) = true
      · rw [if_pos hact] at hif
        injection hif with hif
        injection hif with h1 h2 h3
        obtain ⟨q, hqk, hfq⟩ := mapM_some_backward _ hlp y hy
        rw [Option.bind_eq_some] at hfq
        obtain ⟨node, hnode, hyeq⟩ := hfq
        injection hyeq with hyeq
        have hsome := jsGet_isSome_of_mem_keys hqk
        obtain ⟨ds, hds⟩ := Option.isSome_iff_exists.mp hsome
        have hy2 : y.2 = ds := by
          rw [← hyeq]
          simp only [hds, Option.getD_some]
        have hy1 : y.1 = node := by
          rw [← hyeq]
        refine ⟨h3.symm, q, ds, node, hds, hnode, ?_, ?_, ?_⟩
        · rw [← h1, hy1]
        · rw [← h2, hy2]
        · rw [← hy2]
          exact hact
      · rw [if_neg hact] at hif
        exact absurd hif (by simp)

theorem c7_leaf_actions_witness :
    getDependenciesToInstall stReact = some planReact ∧
    installActions stReact = some actsReact ∧
    ((∀ q ds, jsGet planReact.leaves q = some ds →
      ds.any (fun d => !d.isSatisfied) = true →
      ∃ node, graphGet stReact.graphPackages q = some node ∧
        InstallAction.leafInstall node.location (ds.map (·.dependency))
          stReact.options.hoistEnabled ∈ actsReact) ∧
    (∀ dir specs gs, InstallAction.leafInstall dir specs gs ∈ actsReact →
      gs = stReact.options.hoistEnabled ∧
      ∃ q ds node, jsGet planReact.leaves q = some ds ∧
        graphGet stReact.graphPackages q = some node ∧ dir = node.location ∧
        specs = ds.map (·.dependency) ∧
        ds.any (fun d => !d.isSatisfied) = true)) :=
  ⟨rfl, rfl, c7_leaf_actions stReact planReact actsReact rfl rfl⟩

/-- C5 (corrected): what the aggregate records for a kept dependency.  When no
repo-local package satisfies the declared range the pair `(name, range)` is
recorded; but when a satisfying local package IS found (and the dependency is
kept because it is not materially present), the source records the local
package's CONCRETE version `findPackage(...).version`, not the declared
range. -/
theorem c5_recorded_version (st : BootstrapState) (pkg : Package)
    (hpkg : pkg ∈ st.filteredPackages) (name range : String)
    (hdep : jsGet pkg.allDependencies name = some range)
    (hkeep : keepDep st pkg (externalizeDep st pkg name) = true) :
    (findPackage st name (some range) = none →
      MemAgg (buildDepsToInstall st) name range pkg.name) ∧
    (∀ p, findPackage st name (some range) = some p →
      MemAgg (buildDepsToInstall st) name p.version pkg.name) := by
  have hmem := memAgg_of_declared st hpkg hdep hkeep
  have hgd : (jsGet pkg.allDependencies name).getD "" = range := by
    rw [hdep]
    rfl
  constructor
  · intro hnone
    have hsnd : (externalizeDep st pkg name).2 = range := by
      unfold externalizeDep
      rw [hgd, hnone]
    rw [← hsnd]
    exact hmem
  · intro p hp
    have hsnd : (externalizeDep st pkg name).2 = p.version := by
      unfold externalizeDep
      rw [hgd, hp]
    rw [← hsnd]
    exact hmem

theorem c5_recorded_version_witness :
    paLoc ∈ stLoc.filteredPackages ∧
    jsGet paLoc.allDependencies "b" = some "^1.0.0" ∧
    keepDep stLoc paLoc (externalizeDep stLoc paLoc "b") = true ∧
    findPackage stLoc "b" (some "^1.0.0") = some pbLoc ∧
    MemAgg (buildDepsToInstall stLoc) "b" pbLoc.version paLoc.name :=
  ⟨List.mem_cons_self _ _, rfl, rfl, rfl,
   (c5_recorded_version stLoc paLoc (List.mem_cons_self _ _) "b" "^1.0.0"
     rfl rfl).2 pbLoc rfl⟩

/-- C5 counterexample: in `stLoc` the requester `a` declares `b@^1.0.0`, the
repo-local `b@1.2.3` satisfies the range but is not materially present, and
the dependency is kept — yet the aggregate records the concrete version
`1.2.3` against `a`, and holds NO entry under the declared range `^1.0.0`. -/
theorem c5_range_counterexample :
    jsGet paLoc.allDependencies "b" = some "^1.0.0" ∧
    keepDep stLoc paLoc (externalizeDep stLoc paLoc "b") = true ∧
    stLoc.satisfies pbLoc.version "^1.0.0" = true ∧
    pbLoc ∈ stLoc.packages ∧ pbLoc.name = "b" ∧
    jsGet (buildDepsToInstall stLoc) "b" =
      some { versions := [("1.2.3", 1)], dependents := [("1.2.3", ["a"])] } ∧
    jsGet ({ versions := [("1.2.3", 1)],
             dependents := [("1.2.3", ["a"])] } : DepEntry).dependents
      "^1.0.0" = none :=
  ⟨rfl, rfl, rfl, List.mem_cons_of_mem _ (List.mem_cons_self _ _), rfl, rfl, rfl⟩

/-- C6: a same-named repo-local package whose version does not satisfy the
declared range is treated as external: the pair `(name, range)` is recorded
against the requester and, with the name not hoisted, a leaf install with
spec `name@range` appears under that requester. -/
theorem c6_version_mismatch_external (st : BootstrapState) (P : InstallPlan)
    (hP : getDependenciesToInstall st = some P)
    (pkg : Package) (hpkg : pkg ∈ st.filteredPackages)
    (name range : String)
    (hdep : jsGet pkg.allDependencies name = some range)
    (hlocal : ∃ q ∈ st.packages, q.name = name)
    (hfind : findPackage st name (some range) = none)
    (hkeep : keepDep st pkg (externalizeDep st pkg name) = true)
    (hh : hoistCheck st name = false) :
    MemAgg (buildDepsToInstall st) name range pkg.name ∧
    ∃ ds, jsGet P.leaves pkg.name = some ds ∧
      ∃ l ∈ ds, l.dependency = name ++ "@" ++ range := by
  have hgd : (jsGet pkg.allDependencies name).getD "" = range := by
    rw [hdep]
    rfl
  have hex : externalizeDep st pkg name = (name, range) := by
    unfold externalizeDep
    rw [hgd, hfind]
  have hmem := memAgg_of_declared st hpkg hdep hkeep
  rw [hex] at hmem
  refine ⟨hmem, ?_⟩
  obtain ⟨e, ds, he, hds, hx, hc⟩ := hmem
  have hrv : entryRootVersion st (buildDepsToInstall st) name = none :=
    entryRootVersion_not_hoisted (by simp [hh])
  have hskip : (some range ==
      entryRootVersion st (buildDepsToInstall st) name) = false := by
    rw [hrv]
    rfl
  obtain ⟨dsl, hdsl, l, hl, hln, hlv⟩ := plan_leaf_exists hP he hds hx hc hskip
  refine ⟨dsl, hdsl, l, hl, ?_⟩
  unfold LeafInstall.dependency
  rw [hln, hlv]

theorem c6_version_mismatch_external_witness :
    getDependenciesToInstall stMis = some planMis ∧
    paLoc ∈ stMis.filteredPackages ∧
    jsGet paLoc.allDependencies "b" = some "^1.0.0" ∧
    (∃ q ∈ stMis.packages, q.name = "b") ∧
    findPackage stMis "b" (some "^1.0.0") = none ∧
    keepDep stMis paLoc (externalizeDep stMis paLoc "b") = true ∧
    hoistCheck stMis "b" = false ∧
    (MemAgg (buildDepsToInstall stMis) "b" "^1.0.0" paLoc.name ∧
     ∃ ds, jsGet planMis.leaves paLoc.name = some ds ∧
       ∃ l ∈ ds, l.dependency = "b" ++ "@" ++ "^1.0.0") :=
  ⟨rfl, List.mem_cons_self _ _, rfl,
   ⟨pbMis, List.mem_cons_of_mem _ (List.mem_cons_self _ _), rfl⟩, rfl, rfl, rfl,
   c6_version_mismatch_external stMis planMis rfl paLoc (List.mem_cons_self _ _)
     "b" "^1.0.0" rfl
     ⟨pbMis, List.mem_cons_of_mem _ (List.mem_cons_self _ _), rfl⟩ rfl rfl rfl⟩

/-- C10: a dependency name appearing only in the root manifest is seeded into
the aggregate at count 0, and with hoisting disabled (or the name not
hoistable) the planner discards it silently: no root install and no leaf
install anywhere in the plan carries that name. -/
theorem c10_root_only_discarded (st : BootstrapState) (P : InstallPlan)
    (hP : getDependenciesToInstall st = some P)
    (n r₀ : String)
    (hroot : jsGet st.repository.allDependencies n = some r₀)
    (hnone : ∀ pkg ∈ st.filteredPackages, n ∉ pkg.allDependencies.map (·.1))
    (hh : hoistCheck st n = false) :
    (∀ r ∈ P.root, r.name ≠ n) ∧
    (∀ q ds, jsGet P.leaves q = some ds → ∀ l ∈ ds, l.name ≠ n) := by
  have hseed : jsGet (buildDepsToInstall st) n = some ⟨[(r₀, 0)], [(r₀, [])]⟩ := by
    rw [buildDeps_untouched st hnone]
    exact seedRootDeps_lookup _ hroot
  constructor
  · intro r hr
    obtain ⟨nm, hnm, hrent⟩ := plan_root_mem hP hr
    have hrn := mem_entryRootInstalls_name hrent
    intro hcontra
    rw [hcontra] at hrn
    rw [← hrn] at hrent
    rw [entryRootInstalls_not_hoisted (by simp [hh])] at hrent
    exact absurd hrent (List.not_mem_nil r)
  · refine plan_leaves_all (Q := fun l => l.name ≠ n) hP ?_
    intro nm hnm pl hpl
    rw [mem_entryLeafPushes] at hpl
    obtain ⟨version, hver, hskip, p, hpmem, heq⟩ := hpl
    by_cases hnmn : nm = n
    · subst hnmn
      have heDE := entryDE_eq hseed
      rw [heDE] at hpmem hver
      simp at hver
      subst hver
      simp [jsGet_cons] at hpmem
    · rw [heq]
      exact hnmn

theorem c10_root_only_discarded_witness :
    getDependenciesToInstall stRootOnly = some planRootOnly ∧
    jsGet stRootOnly.repository.allDependencies "rootonly" = some "^2.0.0" ∧
    (∀ pkg ∈ stRootOnly.filteredPackages,
      "rootonly" ∉ pkg.allDependencies.map (·.1)) ∧
    hoistCheck stRootOnly "rootonly" = false ∧
    ((∀ r ∈ planRootOnly.root, r.name ≠ "rootonly") ∧
     (∀ q ds, jsGet planRootOnly.leaves q = some ds →
       ∀ l ∈ ds, l.name ≠ "rootonly")) :=
  ⟨rfl, rfl, by decide, rfl,
   c10_root_only_discarded stRootOnly planRootOnly rfl "rootonly" "^2.0.0" rfl
     (by decide) rfl⟩

/-- C8 (corrected): root-install dependents.  Under a well-formed workspace —
every filtered name present in the package graph and in the package list, no
duplicate package names, no duplicate dependency keys — the planner succeeds
and every root install's dependents list is de-duplicated (by name) and drawn
from the package graph.  The claim's "never fails / dropped silently" part is
false: an unknown requester name aborts the planner (see the
counterexample). -/
theorem c8_dependents (st : BootstrapState)
    (hgraph : ∀ p ∈ st.filteredPackages, ∃ g ∈ st.graphPackages, g.name = p.name)
    (hpkgs : ∀ p ∈ st.filteredPackages, ∃ q ∈ st.packages, q.name = p.name)
    (hnames : (st.filteredPackages.map (·.name)).Nodup)
    (hkeys : ∀ q ∈ st.filteredPackages, (q.allDependencies.map (·.1)).Nodup) :
    ∃ P, getDependenciesToInstall st = some P ∧
      ∀ r ∈ P.root, (r.dependents.map (·.name)).Nodup ∧
        ∀ p ∈ r.dependents, p ∈ st.graphPackages := by
  obtain ⟨P, hP⟩ := getDependenciesToInstall_isSome st hgraph hpkgs hnames hkeys
  have hdeps := buildDeps_AggDeps st hnames hkeys
  refine ⟨P, hP, ?_⟩
  intro r hr
  obtain ⟨nm, hnm, hrent⟩ := plan_root_mem hP hr
  obtain ⟨hh, cv, hcv, hreq⟩ := mem_entryRootInstalls hrent
  have hsome := jsGet_isSome_of_mem_keys (m := buildDepsToInstall st) hnm
  obtain ⟨e, he⟩ := Option.isSome_iff_exists.mp hsome
  have heDE := entryDE_eq he
  rw [heDE] at hreq
  have hnd : ((jsGet e.dependents
      (jsOrElse (jsGet st.repository.allDependencies nm) cv)).getD []).Nodup := by
    cases hdsx : jsGet e.dependents
        (jsOrElse (jsGet st.repository.allDependencies nm) cv) with
    | none => simp
    | some ds => simpa using (hdeps nm e he _ ds hdsx).1
  cases hmapm : ((jsGet e.dependents
      (jsOrElse (jsGet st.repository.allDependencies nm) cv)).getD []).mapM
      (fun d => graphGet st.graphPackages d) with
  | none =>
    rw [hreq, hmapm]
    simp
  | some ys =>
    have hys := mapM_graphGet_names st.graphPackages hmapm
    rw [hreq, hmapm]
    simp only [Option.getD_some]
    refine ⟨?_, hys.2⟩
    rw [hys.1]
    exact hnd

theorem c8_dependents_witness :
    (∀ p ∈ stReact.filteredPackages,
      ∃ g ∈ stReact.graphPackages, g.name = p.name) ∧
    (∀ p ∈ stReact.filteredPackages, ∃ q ∈ stReact.packages, q.name = p.name) ∧
    (stReact.filteredPackages.map (·.name)).Nodup ∧
    (∀ q ∈ stReact.filteredPackages, (q.allDependencies.map (·.1)).Nodup) ∧
    ∃ P, getDependenciesToInstall stReact = some P ∧
      ∀ r ∈ P.root, (r.dependents.map (·.name)).Nodup ∧
        ∀ p ∈ r.dependents, p ∈ stReact.graphPackages :=
  ⟨by decide, by decide, by decide, by decide,
   c8_dependents stReact (by decide) (by decide) (by decide) (by decide)⟩

/-- C8 counterexample: a filtered package whose name is absent from the
package graph is not dropped silently — the requester dereference fails and
the whole planner aborts with `none` (the JavaScript TypeError). -/
theorem c8_unknown_requester_counterexample :
    (∃ pkg ∈ stNoGraph.filteredPackages,
      graphGet stNoGraph.graphPackages pkg.name = none) ∧
    getDependenciesToInstall stNoGraph = none :=
  ⟨⟨paLP, List.mem_cons_self _ _, rfl⟩, rfl⟩

/-- C9 (corrected): batch ordering in lifecycle phases.  With topological
sorting enabled, the batching places each package's local dependencies in
strictly earlier batches and `runParallelBatches` finishes a batch before
starting the next, so when A depends on B, B's script-finish precedes A's
script-start.  The claim is not unconditional: with `--no-sort` all filtered
packages form one flat batch and the ordering can be violated (see the
counterexample). -/
theorem c9_batch_ordering (st : BootstrapState) (bs : List (List Package))
    (tr : List ScriptEvent)
    (htopo : st.options.toposort = true)
    (hbatch : TopoBatching st.filteredPackages bs)
    (hrun : PhaseRun (batchedPackages st bs) tr)
    (A B : Package) (hA : A ∈ st.filteredPackages) (hB : B ∈ st.filteredPackages)
    (hdep : DependsOn A B) :
    Precedes (ScriptEvent.finish B.name) (ScriptEvent.start A.name) tr := by
  have hbp : batchedPackages st bs = bs := by
    unfold batchedPackages
    rw [htopo]
    simp
  rw [hbp] at hrun
  obtain ⟨segs, hlen, htr, hseg⟩ := hrun
  obtain ⟨qA, hqAfl, hqAname⟩ := hbatch.1 A hA
  obtain ⟨bA, hbA, hqAbA⟩ := List.mem_flatten.mp hqAfl
  obtain ⟨⟨i, hi⟩, hbAi⟩ := List.mem_iff_get.mp hbA
  have hAin : ∃ q ∈ bs.getD i [], q.name = A.name := by
    rw [getD_eq_get bs [] hi, hbAi]
    exact ⟨qA, hqAbA, hqAname⟩
  obtain ⟨qB, hqBtake, hqBname⟩ :=
    hbatch.2 i (List.mem_range.mpr hi) A hA hAin B hB hdep
  obtain ⟨bB, hbB, hqBbB⟩ := List.mem_flatten.mp hqBtake
  obtain ⟨j, hjlen, hji, hbBj⟩ := mem_take_get bs i hbB
  have hstart : ScriptEvent.start A.name ∈
      segs.get ⟨i, by rw [hlen]; exact hi⟩ := by
    have hs := ((hseg i hi).2 qA (by rw [hbAi]; exact hqAbA)).1
    rw [hqAname] at hs
    exact hs
  have hfin : ScriptEvent.finish B.name ∈
      segs.get ⟨j, by rw [hlen]; exact hjlen⟩ := by
    have hs := ((hseg j hjlen).2 qB (by rw [hbBj]; exact hqBbB)).2
    rw [hqBname] at hs
    exact hs
  rw [htr]
  exact flatten_split_mem hji (by rw [hlen]; exact hi) hfin hstart

theorem c9_batch_ordering_witness :
    st9topo.options.toposort = true ∧
    TopoBatching st9topo.filteredPackages batches9 ∧
    PhaseRun (batchedPackages st9topo batches9) trGood ∧
    p9a ∈ st9topo.filteredPackages ∧ p9b ∈ st9topo.filteredPackages ∧
    DependsOn p9a p9b ∧
    Precedes (ScriptEvent.finish p9b.name) (ScriptEvent.start p9a.name) trGood := by
  have htb : TopoBatching st9topo.filteredPackages batches9 := by decide
  have hpr : PhaseRun (batchedPackages st9topo batches9) trGood :=
    ⟨[[ScriptEvent.start "b", ScriptEvent.finish "b"],
      [ScriptEvent.start "a", ScriptEvent.finish "a"]], rfl, by simp [trGood],
     by decide⟩
  exact ⟨rfl, htb, hpr,
    List.mem_cons_self _ _, List.mem_cons_of_mem _ (List.mem_cons_self _ _),
    by decide,
    c9_batch_ordering st9topo batches9 trGood rfl htb hpr p9a p9b
      (List.mem_cons_self _ _) (List.mem_cons_of_mem _ (List.mem_cons_self _ _))
      (by decide)⟩

/-- C9 counterexample: with `--no-sort` the batching is the single flat batch
`[filteredPackages]`; a legal run of that batch can finish the dependency `b`
AFTER starting the dependent `a`, so the claimed ordering does not hold
unconditionally. -/
theorem c9_flat_batch_counterexample :
    st9flat.options.toposort = false ∧
    batchedPackages st9flat batches9 = [st9flat.filteredPackages] ∧
    PhaseRun (batchedPackages st9flat batches9) trBad ∧
    p9a ∈ st9flat.filteredPackages ∧ p9b ∈ st9flat.filteredPackages ∧
    DependsOn p9a p9b ∧
    ¬ Precedes (ScriptEvent.finish p9b.name) (ScriptEvent.start p9a.name) trBad := by
  refine ⟨rfl, rfl, ⟨[trBad], rfl, by simp, by decide⟩,
    List.mem_cons_self _ _, List.mem_cons_of_mem _ (List.mem_cons_self _ _),
    by decide, by decide⟩

/-! ### Helpers for the warning-correspondence claim. -/

theorem some_beq_some (a b : String) :
    ((some a : Option String) == some b) = (a == b) := rfl

theorem strTruthy_of_ne {s : String} (h : s ≠ "") : strTruthy s = true := by
  unfold strTruthy
  exact bne_iff_ne.mpr h

theorem jsOrElse_some_ne {s : String} (d : String) (h : s ≠ "") :
    jsOrElse (some s) d = s := by
  show (if s == "" then d else s) = s
  rw [if_neg (by simp only [beq_iff_eq]; exact h)]

theorem jsOrElse_ne_empty {x : Option String} {d : String}
    (hx : x ≠ some "") (hd : d ≠ "") : jsOrElse x d ≠ "" := by
  cases x with
  | none => exact hd
  | some s =>
    by_cases hs : s = ""
    · exact absurd (by rw [hs]) hx
    · rw [jsOrElse_some_ne d hs]
      exact hs

theorem count_flatten_single {w : Warning} :
    ∀ (ks : List String) (f : String → List Warning) (v : String), ks.Nodup →
      v ∈ ks → (∀ u ∈ ks, u ≠ v → w ∉ f u) →
      ((ks.map f).flatten).count w = (f v).count w := by
  intro ks
  induction ks with
  | nil => intro f v _ hv; simp at hv
  | cons k ks ih =>
    intro f v hnd hv hz
    rw [List.map_cons, List.flatten_cons, List.count_append]
    rw [List.nodup_cons] at hnd
    rcases List.mem_cons.mp hv with rfl | hv'
    · have hrest : ((ks.map f).flatten).count w = 0 := by
        apply List.count_eq_zero.mpr
        intro hmem
        rw [List.mem_flatten] at hmem
        obtain ⟨l, hl, hwl⟩ := hmem
        obtain ⟨u, hu, rfl⟩ := List.mem_map.mp hl
        exact hz u (List.mem_cons_of_mem _ hu) (fun hc => hnd.1 (hc ▸ hu)) hwl
      rw [hrest]
      omega
    · have hk0 : (f k).count w = 0 :=
        List.count_eq_zero.mpr (hz k (List.mem_cons_self _ _)
          (fun hc => hnd.1 (hc ▸ hv')))
      rw [hk0, ih f v hnd.2 hv'
        (fun u hu hune => hz u (List.mem_cons_of_mem _ hu) hune)]
      omega

theorem entryWarnings_count_hoistPkg {st : BootstrapState} {agg : Aggregate}
    {n : String} {e : DepEntry} (he : jsGet agg n = some e)
    (hh : hoistCheck st n = true) {cv : String}
    (hcv : commonVersionOf e = some cv)
    (htr : rootVersionTruthy
      (some (jsOrElse (jsGet st.repository.allDependencies n) cv)) = true)
    {p v : String} {ds : List String} (hds : jsGet e.dependents v = some ds)
    (hnodup : ds.Nodup) (hp : p ∈ ds)
    (hvk : v ∈ e.versions.map (·.1)) (hvnd : (e.versions.map (·.1)).Nodup)
    (hvne : v ≠ jsOrElse (jsGet st.repository.allDependencies n) cv) :
    (entryWarnings st agg n).count
      (Warning.hoistPkg p n v
        (jsOrElse (jsGet st.repository.allDependencies n) cv)) = 1 := by
  have heDE := entryDE_eq he
  have hrvh : entryRootVersion st agg n =
      some (jsOrElse (jsGet st.repository.allDependencies n) cv) :=
    entryRootVersion_hoisted hh (by rw [heDE]; exact hcv)
  unfold entryWarnings
  rw [heDE, hrvh, List.count_append]
  have hzero : (entryRootWarnings st agg n).count
      (Warning.hoistPkg p n v
        (jsOrElse (jsGet st.repository.allDependencies n) cv)) = 0 :=
    List.count_eq_zero.mpr (fun hmem => by
      obtain ⟨_, _, _, _, hweq⟩ := mem_entryRootWarnings hmem
      exact Warning.noConfusion hweq)
  rw [hzero]
  have hz : ∀ u ∈ e.versions.map (·.1), u ≠ v →
      (Warning.hoistPkg p n v
          (jsOrElse (jsGet st.repository.allDependencies n) cv)) ∉
        (if some u ==
            some (jsOrElse (jsGet st.repository.allDependencies n) cv) then []
         else versionWarnings n
           (some (jsOrElse (jsGet st.repository.allDependencies n) cv)) u
           ((jsGet e.dependents u).getD [])) := by
    intro u hu hune hwmem
    by_cases husk : (some u ==
        some (jsOrElse (jsGet st.repository.allDependencies n) cv)) = true
    · rw [if_pos husk] at hwmem
      exact absurd hwmem (List.not_mem_nil _)
    · rw [if_neg husk] at hwmem
      unfold versionWarnings at hwmem
      rw [if_pos htr] at hwmem
      obtain ⟨q, hq, hqe⟩ := List.mem_map.mp hwmem
      injection hqe with e1 e2 e3 e4
      exact hune e3
  rw [count_flatten_single (e.versions.map (·.1)) _ v hvnd hvk hz]
  rw [if_neg (by simp only [some_beq_some, beq_iff_eq]; exact hvne)]
  unfold versionWarnings
  rw [if_pos htr]
  simp only [hds, Option.getD_some]
  have hone : List.count
      (Warning.hoistPkg p n v (jsOrElse (jsGet st.repository.allDependencies n) cv))
      (ds.map (fun q => Warning.hoistPkg q n v
        (jsOrElse (jsGet st.repository.allDependencies n) cv))) = 1 := by
    have hcnt := count_map_inj (l := ds)
      (f := fun q => Warning.hoistPkg q n v
        (jsOrElse (jsGet st.repository.allDependencies n) cv))
      (fun a b hab => by injection hab) p
    rw [List.count_eq_one_of_mem hnodup hp] at hcnt
    exact hcnt
  rw [hone]

/-- C3: Warning correspondence.  For a hoisted dependency name (with a
truthy root range and common version, the source's falsy checks),
`EHOIST_ROOT_VERSION` is emitted iff the root manifest's range is present and
differs from the common version; `EHOIST_PKG_VERSION` is emitted exactly once
per (requester, range) pair whose range differs from the chosen root version,
and only for such pairs; a non-hoisted name yields no warning at all, its
dependents becoming leaf installs. -/
theorem c3_warning_correspondence (st : BootstrapState) (P : InstallPlan)
    (hP : getDependenciesToInstall st = some P)
    (hnames : (st.filteredPackages.map (·.name)).Nodup)
    (hkeys : ∀ q ∈ st.filteredPackages, (q.allDependencies.map (·.1)).Nodup)
    (n : String) (e : DepEntry)
    (he : jsGet (buildDepsToInstall st) n = some e)
    (cv : String) (hcv : commonVersionOf e = some cv)
    (hroot : jsGet st.repository.allDependencies n ≠ some "")
    (hcvne : cv ≠ "") :
    (hoistCheck st n = true →
      ∀ rv' cv', Warning.hoistRoot n rv' cv' ∈ P.warnings ↔
        ∃ r, jsGet st.repository.allDependencies n = some r ∧ r ≠ cv ∧
          rv' = r ∧ cv' = cv) ∧
    (hoistCheck st n = true →
      ∀ p v ds, jsGet e.dependents v = some ds → p ∈ ds →
        v ≠ jsOrElse (jsGet st.repository.allDependencies n) cv →
        P.warnings.count (Warning.hoistPkg p n v
          (jsOrElse (jsGet st.repository.allDependencies n) cv)) = 1) ∧
    (hoistCheck st n = true →
      ∀ p v rv', Warning.hoistPkg p n v rv' ∈ P.warnings →
        rv' = jsOrElse (jsGet st.repository.allDependencies n) cv ∧ v ≠ rv' ∧
        ∃ ds, jsGet e.dependents v = some ds ∧ p ∈ ds) ∧
    (hoistCheck st n = false →
      (∀ w ∈ P.warnings, w.depName ≠ n) ∧
      (∀ v ds p, jsGet e.dependents v = some ds → p ∈ ds →
        ∃ dsl, jsGet P.leaves p = some dsl ∧
          ∃ l ∈ dsl, l.name = n ∧ l.version = v)) := by
  have heDE := entryDE_eq he
  have hcv2 : commonVersionOf (entryDE (buildDepsToInstall st) n) = some cv := by
    rw [heDE]
    exact hcv
  have hwf := (buildDepsToInstall_AggWF st).2 n e he
  have hknd := (buildDepsToInstall_AggWF st).1
  have hdeps := buildDeps_AggDeps st hnames hkeys
  have hkeysn : n ∈ (buildDepsToInstall st).map (·.1) := jsGet_mem_keys he
  refine ⟨?_, ?_, ?_, ?_⟩
  · intro hh rv' cv'
    have hrvh : entryRootVersion st (buildDepsToInstall st) n =
        some (jsOrElse (jsGet st.repository.allDependencies n) cv) :=
      entryRootVersion_hoisted hh hcv2
    constructor
    · intro hw
      obtain ⟨nm, hnm, hwent⟩ := plan_warning_mem hP hw
      have hdn : n = nm := mem_entryWarnings_depName hwent
      subst hdn
      rcases mem_entryWarnings_cases hwent with hrw |
        ⟨version, hver, hskip, htrr, q, hq, heqw⟩
      · obtain ⟨hh2, cv₀, hcv₀, hne₀, hweq⟩ := mem_entryRootWarnings hrw
        rw [hcv2] at hcv₀
        injection hcv₀ with hcv₀
        subst hcv₀
        injection hweq with h1 h2 h3
        cases hr : jsGet st.repository.allDependencies n with
        | none =>
          exfalso
          apply hne₀
          rw [hr]
          rfl
        | some r =>
          have hrne : r ≠ "" := fun hc => hroot (by rw [hr, hc])
          refine ⟨r, rfl, ?_, ?_, h3⟩
          · intro hrc
            apply hne₀
            rw [hr, hrc]
            show (if cv == "" then cv else cv) = cv
            split <;> rfl
          · rw [h2, hr]
            exact jsOrElse_some_ne cv hrne
      · exact Warning.noConfusion heqw
    · rintro ⟨r, hr, hrc, hrv2, hcv3⟩
      rw [hrv2, hcv3]
      have hrne : r ≠ "" := fun hc => hroot (by rw [hr, hc])
      have hje : jsOrElse (jsGet st.repository.allDependencies n) cv = r := by
        rw [hr]
        exact jsOrElse_some_ne cv hrne
      have hne₀ : jsOrElse (jsGet st.repository.allDependencies n) cv ≠ cv := by
        rw [hje]
        exact hrc
      have hrw : entryRootWarnings st (buildDepsToInstall st) n =
          [Warning.hoistRoot n
            (jsOrElse (jsGet st.repository.allDependencies n) cv) cv] :=
        entryRootWarnings_eq_of_ne hh hcv2 hne₀
      apply plan_warning_of_entry hP hkeysn
      unfold entryWarnings
      apply List.mem_append_left
      rw [hrw, hje]
      exact List.mem_singleton_self _
  · intro hh p v ds hds hp hvne
    have htr : rootVersionTruthy
        (some (jsOrElse (jsGet st.repository.allDependencies n) cv)) = true :=
      strTruthy_of_ne (jsOrElse_ne_empty hroot hcvne)
    have hnodup : ds.Nodup := (hdeps n e he v ds hds).1
    have hc := hwf.2.2 v ds hds
      (fun hnil => absurd (hnil ▸ hp) (List.not_mem_nil p))
    have hvk : v ∈ e.versions.map (·.1) := by
      cases hq : jsGet e.versions v with
      | none => rw [hq] at hc; simp at hc
      | some c => exact jsGet_mem_keys hq
    rw [plan_warning_count hP (Warning.hoistPkg p n v
        (jsOrElse (jsGet st.repository.allDependencies n) cv)) hkeysn hknd
      (fun m hm hmne hwmem => hmne (Eq.symm (mem_entryWarnings_depName hwmem)))]
    exact entryWarnings_count_hoistPkg he hh hcv htr hds hnodup hp hvk hwf.1 hvne
  · intro hh p v rv' hw
    obtain ⟨nm, hnm, hwent⟩ := plan_warning_mem hP hw
    have hdn : n = nm := mem_entryWarnings_depName hwent
    subst hdn
    rcases mem_entryWarnings_cases hwent with hrw |
      ⟨version, hver, hskip, htrr, q, hq, heqw⟩
    · obtain ⟨_, _, _, _, hweq⟩ := mem_entryRootWarnings hrw
      exact Warning.noConfusion hweq
    · have hrvh : entryRootVersion st (buildDepsToInstall st) n =
          some (jsOrElse (jsGet st.repository.allDependencies n) cv) :=
        entryRootVersion_hoisted hh hcv2
      rw [hrvh] at hskip heqw
      simp only [Option.getD_some] at heqw
      injection heqw with e1 e2 e3 e4
      subst e1
      subst e3
      refine ⟨e4, ?_, ?_⟩
      · rw [e4]
        rw [some_beq_some] at hskip
        exact beq_eq_false_iff_ne.mp hskip
      · rw [heDE] at hq
        cases hdd : jsGet e.dependents v with
        | none =>
          rw [hdd] at hq
          exact absurd hq (by simp)
        | some ds2 =>
          rw [hdd] at hq
          exact ⟨ds2, rfl, by simpa using hq⟩
  · intro hh
    constructor
    · intro w hw hdn
      obtain ⟨nm, hnm, hwent⟩ := plan_warning_mem hP hw
      have hdnm := mem_entryWarnings_depName hwent
      rw [hdn] at hdnm
      subst hdnm
      rcases mem_entryWarnings_cases hwent with hrw |
        ⟨version, hver, hskip, htrr, q, hq, heqw⟩
      · obtain ⟨hh2, _⟩ := mem_entryRootWarnings hrw
        rw [hh] at hh2
        exact Bool.false_ne_true hh2
      · rw [entryRootVersion_not_hoisted (by simp [hh])] at htrr
        simp [rootVersionTruthy] at htrr
    · intro v ds p hds hp
      have hrv : entryRootVersion st (buildDepsToInstall st) n = none :=
        entryRootVersion_not_hoisted (by simp [hh])
      have hc := hwf.2.2 v ds hds
        (fun hnil => absurd (hnil ▸ hp) (List.not_mem_nil p))
      have hskip : (some v ==
          entryRootVersion st (buildDepsToInstall st) n) = false := by
        rw [hrv]
        rfl
      exact plan_leaf_exists hP he hds hp hc hskip

theorem c3_warning_correspondence_witness :
    getDependenciesToInstall stReact = some planReact ∧
    (stReact.filteredPackages.map (·.name)).Nodup ∧
    (∀ q ∈ stReact.filteredPackages, (q.allDependencies.map (·.1)).Nodup) ∧
    jsGet (buildDepsToInstall stReact) "react" = some entReact ∧
    commonVersionOf entReact = some "15.x" ∧
    jsGet stReact.repository.allDependencies "react" ≠ some "" ∧
    "15.x" ≠ "" ∧
    ((hoistCheck stReact "react" = true →
      ∀ rv' cv', Warning.hoistRoot "react" rv' cv' ∈ planReact.warnings ↔
        ∃ r, jsGet stReact.repository.allDependencies "react" = some r ∧
          r ≠ "15.x" ∧ rv' = r ∧ cv' = "15.x") ∧
     (hoistCheck stReact "react" = true →
      ∀ p v ds, jsGet entReact.dependents v = some ds → p ∈ ds →
        v ≠ jsOrElse (jsGet stReact.repository.allDependencies "react") "15.x" →
        planReact.warnings.count (Warning.hoistPkg p "react" v
          (jsOrElse (jsGet stReact.repository.allDependencies "react")
            "15.x")) = 1) ∧
     (hoistCheck stReact "react" = true →
      ∀ p v rv', Warning.hoistPkg p "react" v rv' ∈ planReact.warnings →
        rv' = jsOrElse (jsGet stReact.repository.allDependencies "react")
          "15.x" ∧ v ≠ rv' ∧
        ∃ ds, jsGet entReact.dependents v = some ds ∧ p ∈ ds) ∧
     (hoistCheck stReact "react" = false →
      (∀ w ∈ planReact.warnings, w.depName ≠ "react") ∧
      (∀ v ds p, jsGet entReact.dependents v = some ds → p ∈ ds →
        ∃ dsl, jsGet planReact.leaves p = some dsl ∧
          ∃ l ∈ dsl, l.name = "react" ∧ l.version = v))) :=
  ⟨rfl, by decide, by decide, rfl, rfl, by decide, by decide,
   c3_warning_correspondence stReact planReact rfl (by decide) (by decide)
     "react" entReact rfl "15.x" rfl (by decide) (by decide)⟩

end Lerna
